import Mathlib

/-!
Shallow embedding of the flex-table grid engine core (iyulab/flex-table).

Embedded from the TypeScript sources:
* sorting.ts      — computeSortedIndices and its type-aware comparator
* filtering.ts    — computeFilteredIndices with fail-open error handling
* clipboard.ts    — parseClipboardText / parseValueForColumn
* selection.ts    — SelectionState
* undo.ts (models/types.ts) — UndoStack with a bounded undo stack
* flex-table.ts   — deleteColumn / moveColumn / paste / visibleRange

JavaScript dynamic values are modelled by the inductive type `Value`
(null and undefined are identified: both compare `== null`).  JS numbers
are modelled as integers; host built-ins (`Number`, `Date` parsing,
`localeCompare`) are modelled by explicitly named total functions whose
concrete choice is irrelevant to the claims proved below.
-/

namespace FlexTable

/-- A dynamic JS value stored in a cell.  `vNull` covers both `null` and
`undefined` (the source only ever tests `v == null`, which identifies them). -/
inductive Value where
  | vNull : Value
  | vStr (s : String) : Value
  | vNum (n : Int) : Value
  | vBool (b : Bool) : Value
deriving DecidableEq, Repr

/-- A data row: an open-ended key-to-value map (`DataRow` in models/types.ts).
A missing key reads as `vNull` (JS `undefined`). -/
def Row := List (String × Value)

instance : DecidableEq Row := by unfold Row; infer_instance

/-- `row[key]` - property access; missing property is `undefined`, modelled
as `vNull`. -/
def getVal (r : Row) (k : String) : Value :=
  match r.find? (fun p => p.1 == k) with
  | some p => p.2
  | none => .vNull

/-- Column definition (models/types.ts, data-relevant fields; renderer,
editor and validator closures are irrelevant to the embedded operations). -/
structure ColumnDefinition where
  key : String
  header : String := ""
  type : Option String := none
  width : Option Int := none
  minWidth : Option Int := none
  hidden : Option Bool := none
  sortable : Option Bool := none
  editable : Option Bool := none
deriving DecidableEq, Repr

/-- Model of the JS `Number(string)` coercion (`NaN` is `none`).
The concrete parse is irrelevant to every claim proved here; we use the
integer parse, with `Number("") = 0` as in JS. -/
def numParse (s : String) : Option Int :=
  if s = "" then some 0 else s.toInt?

/-- Model of JS `Number(value)`; `none` models `NaN`. -/
def toNumber : Value → Option Int
  | .vNull => some 0
  | .vStr s => numParse s
  | .vNum n => some n
  | .vBool b => some (if b then 1 else 0)

/-- JS truthiness of a value (used by the `boolean` comparator branch). -/
def truthy : Value → Bool
  | .vNull => false
  | .vStr s => s ≠ ""
  | .vNum n => n ≠ 0
  | .vBool b => b

/-- JS `String(value)`. -/
def toStr : Value → String
  | .vNull => "null"
  | .vStr s => s
  | .vNum n => toString n
  | .vBool b => if b then "true" else "false"

/-- Model of `new Date(v).getTime()`: `none` models `NaN` (an unparsable
date).  The concrete parse is irrelevant to the claims. -/
def dateMillis : Value → Option Int
  | .vNull => none
  | .vStr s => if s = "" then none else s.toInt?
  | .vNum n => some n
  | .vBool b => some (if b then 1 else 0)

/-- Model of `String.prototype.localeCompare` restricted to its sign
(the source only consumes the sign): the default-locale total order on
strings is modelled by the lexicographic order. -/
def strCmp (a b : String) : Int :=
  if a < b then -1 else if a = b then 0 else 1

/-- `compareValues` from sorting.ts: type-aware comparison of two non-null
cell values. -/
def compareValues (a b : Value) (type : String) : Int :=
  if type = "number" then
    match toNumber a, toNumber b with
    | none, none => 0
    | none, some _ => 1
    | some _, none => -1
    | some na, some nb => na - nb
  else if type = "boolean" then
    (if truthy a then 1 else 0) - (if truthy b then 1 else 0)
  else if type = "date" ∨ type = "datetime" then
    (dateMillis a).getD 0 - (dateMillis b).getD 0
  else
    strCmp (toStr a) (toStr b)

/-- Sort direction. -/
inductive SortDirection where
  | asc : SortDirection
  | desc : SortDirection
deriving DecidableEq, Repr

/-- A single sort criterion (`SortCriteria` in sorting.ts). -/
structure SortCriteria where
  key : String
  direction : SortDirection
deriving DecidableEq, Repr

/-- The column-type map built in `computeSortedIndices`:
`colTypeMap.set(col.key, col.type ?? 'text')` with JS `Map` last-wins
semantics, and `colTypeMap.get(key) ?? 'text'` on lookup. -/
def typeForKey (columns : List ColumnDefinition) (k : String) : String :=
  match columns.reverse.find? (fun c => c.key == k) with
  | some c => c.type.getD "text"
  | none => "text"

/-- One pass of the comparator loop body over the criteria list:
`some v` is an early `return v`, `none` means the loop fell through
(all criteria tied). -/
def sortCmp (types : String → String) : List SortCriteria → Row → Row → Option Int
  | [], _, _ => none
  | c :: rest, x, y =>
    let va := getVal x c.key
    let vb := getVal y c.key
    if va = .vNull ∧ vb = .vNull then sortCmp types rest x y
    else if va = .vNull then some 1
    else if vb = .vNull then some (-1)
    else
      let cmp := compareValues va vb (types c.key)
      if cmp ≠ 0 then some (if c.direction = .asc then cmp else -cmp)
      else sortCmp types rest x y

/-- `data[a]` for an index produced by `List.range data.length`. -/
def rowAt (data : List Row) (i : Nat) : Row :=
  data.getD i []

/-- The full comparator passed to `indices.sort`: per-criterion loop with
the stable-tiebreak fallback `a - b`. -/
def idxCmp (data : List Row) (types : String → String) (criteria : List SortCriteria)
    (a b : Nat) : Int :=
  match sortCmp types criteria (rowAt data a) (rowAt data b) with
  | some v => v
  | none => (a : Int) - (b : Int)

/-- The sort ordering relation induced by the comparator. -/
def idxLe (data : List Row) (types : String → String) (criteria : List SortCriteria)
    (a b : Nat) : Prop :=
  idxCmp data types criteria a b ≤ 0

instance (data : List Row) (types : String → String) (criteria : List SortCriteria) :
    DecidableRel (idxLe data types criteria) := fun _ _ => by
  unfold idxLe; infer_instance

/-- `computeSortedIndices` from sorting.ts.  `indices.sort(comparator)` is
JS `Array.prototype.sort`; since the comparator below is a consistent
comparison whose ties (`comparator(a,b) == 0`) only occur at `a == b`, the
sorted permutation is unique and any correct sort computes it; we use
insertion sort. -/
def computeSortedIndices (data : List Row) (criteria : List SortCriteria)
    (columns : List ColumnDefinition) : List Nat :=
  let indices := List.range data.length
  if criteria.isEmpty then indices
  else indices.insertionSort (idxLe data (typeForKey columns) criteria)

/-! Order-analysis apparatus for the comparator (used by the proofs):
each criterion compares rows by a key drawn from a linear order. -/

/-- The value a single criterion comparison is determined by: an integer
(number / boolean / date branches), `NaN` (unparsable number, sorting
above all numbers in ascending order), or a string (text branch).
The order is `bInt _ < bNaN < bStr _`. -/
inductive BKey where
  | bInt (n : Int) : BKey
  | bNaN : BKey
  | bStr (s : String) : BKey
deriving DecidableEq, Repr

/-- Linear comparison on `BKey` (sign-compatible with `compareValues`). -/
def bCmp : BKey → BKey → Int
  | .bInt m, .bInt n => if m < n then -1 else if m = n then 0 else 1
  | .bInt _, .bNaN => -1
  | .bInt _, .bStr _ => -1
  | .bNaN, .bInt _ => 1
  | .bNaN, .bNaN => 0
  | .bNaN, .bStr _ => -1
  | .bStr _, .bInt _ => 1
  | .bStr _, .bNaN => 1
  | .bStr a, .bStr b => strCmp a b

/-- The key `compareValues` effectively compares under column type `t`. -/
def baseKey (t : String) (v : Value) : BKey :=
  if t = "number" then
    match toNumber v with
    | none => .bNaN
    | some n => .bInt n
  else if t = "boolean" then .bInt (if truthy v then 1 else 0)
  else if t = "date" ∨ t = "datetime" then .bInt ((dateMillis v).getD 0)
  else .bStr (toStr v)

/-- The key one criterion extracts from a row; `none` is a null/undefined
cell, which sorts after everything regardless of direction. -/
def rank (types : String → String) (c : SortCriteria) (x : Row) : Option BKey :=
  match getVal x c.key with
  | .vNull => none
  | v => some (baseKey (types c.key) v)

/-- Direction-adjusted comparison of two ranks; nulls compare last in
both directions. -/
def rankCmp (d : SortDirection) : Option BKey → Option BKey → Int
  | none, none => 0
  | none, some _ => 1
  | some _, none => -1
  | some a, some b => if d = .asc then bCmp a b else -(bCmp a b)

/-- The sign skeleton of the criteria loop: first non-zero
direction-adjusted rank comparison, else 0. -/
def lexCmp (types : String → String) : List SortCriteria → Row → Row → Int
  | [], _, _ => 0
  | c :: rest, x, y =>
    let v := rankCmp c.direction (rank types c x) (rank types c y)
    if v = 0 then lexCmp types rest x y else v

/-! ### Filtering (filtering.ts, the variant with fail-open error handling) -/

/-- A filter applied to a specific column.  The predicate receives
`(row[key], row)`; a JS predicate can throw, modelled by `Except`:
`.error e` is a thrown exception `e`. -/
structure ColumnFilter where
  key : String
  predicate : Value → Row → Except String Bool

/-- The inner filter loop of `computeFilteredIndices` for one row:
returns whether the row passes (throwing predicates are skipped fail-open,
an `.ok false` breaks the loop) together with the errors reported for this
row, in filter order (`console.warn` and the `onError` callback are both
modelled by this list). -/
def rowPass : List ColumnFilter → Row → Bool × List (String × Row × ColumnFilter)
  | [], _ => (true, [])
  | f :: rest, row =>
    match f.predicate (getVal row f.key) row with
    | .ok true => rowPass rest row
    | .ok false => (false, [])
    | .error e =>
      let p := rowPass rest row
      (p.1, (e, row, f) :: p.2)

/-- `computeFilteredIndices` from filtering.ts: data indices passing all
filters (AND logic), plus the error reports delivered to the logger and
the optional `onError` callback.  The imperative accumulation loop is
expressed as `filter`/`bind` over `[0..n)` in the same order. -/
def computeFilteredIndices (data : List Row) (filters : List ColumnFilter) :
    List Nat × List (String × Row × ColumnFilter) :=
  if filters.isEmpty then (List.range data.length, [])
  else
    ((List.range data.length).filter (fun i => (rowPass filters (rowAt data i)).1),
     (List.range data.length).flatMap (fun i => (rowPass filters (rowAt data i)).2))

/-- A filter whose predicate always throws (concrete input for the
error-handling path). -/
def throwingFilter : ColumnFilter :=
  { key := "k", predicate := fun _ _ => .error "boom" }

/-! ### Clipboard codec (clipboard.ts) -/

/-- `text.replace(/\r\n/g, '\n').replace(/\r/g, '\n')`: normalize line
endings (the two sequential global replacements amount to this single
left-to-right pass). -/
def normEOL : List Char → List Char
  | '\r' :: '\n' :: rest => '\n' :: normEOL rest
  | '\r' :: rest => '\n' :: normEOL rest
  | c :: rest => c :: normEOL rest
  | [] => []

/-- The quoted-field scanner of `parseClipboardText`: collect until the
closing quote, `""` is an escaped literal quote; returns the field and the
remaining input (positioned after the closing quote).  An unterminated
quote consumes the rest of the input, as in the source loop. -/
def scanQuoted : List Char → String → String × List Char
  | [], acc => (acc, [])
  | c :: rest, acc =>
    if c = '"' then
      match rest with
      | [] => (acc, [])
      | c2 :: rest2 =>
        if c2 = '"' then scanQuoted rest2 (acc.push '"') else (acc, rest)
    else scanQuoted rest (acc.push c)

/-- The unquoted-field scanner: collect until a tab or newline; the
delimiter is left in the remaining input. -/
def scanUnquoted : List Char → String → String × List Char
  | [], acc => (acc, [])
  | c :: rest, acc =>
    if c = '\t' ∨ c = '\n' then (acc, c :: rest)
    else scanUnquoted rest (acc.push c)

def scanQuoted_nil (acc : String) : scanQuoted [] acc = (acc, []) := rfl

def scanQuoted_quote_nil (acc : String) : scanQuoted ['"'] acc = (acc, []) := rfl

def scanQuoted_quote_quote (rest2 : List Char) (acc : String) :
    scanQuoted ('"' :: '"' :: rest2) acc = scanQuoted rest2 (acc.push '"') := rfl

def scanQuoted_quote_other (c2 : Char) (rest2 : List Char) (acc : String)
    (h : c2 ≠ '"') : scanQuoted ('"' :: c2 :: rest2) acc = (acc, c2 :: rest2) := by
  rw [scanQuoted.eq_def]
  simp [h]

def scanQuoted_other (c : Char) (rest : List Char) (acc : String) (h : c ≠ '"') :
    scanQuoted (c :: rest) acc = scanQuoted rest (acc.push c) := by
  rw [scanQuoted.eq_def]
  simp [h]

def scanQuoted_length (cs : List Char) (acc : String) :
    (scanQuoted cs acc).2.length ≤ cs.length := by
  have H : ∀ n, ∀ cs : List Char, cs.length ≤ n → ∀ acc : String,
      (scanQuoted cs acc).2.length ≤ cs.length := by
    intro n
    induction n with
    | zero =>
      intro cs h acc
      have : cs = [] := List.eq_nil_of_length_eq_zero (Nat.le_zero.mp h)
      subst this; simp [scanQuoted]
    | succ n ih =>
      intro cs h acc
      match cs with
      | [] => simp [scanQuoted]
      | c :: rest =>
        by_cases hc : c = '"'
        · subst hc
          match rest with
          | [] => simp [scanQuoted_quote_nil]
          | c2 :: rest2 =>
            by_cases hc2 : c2 = '"'
            · subst hc2
              rw [scanQuoted_quote_quote]
              have hlen : rest2.length ≤ n := by simp at h; omega
              have := ih rest2 hlen (acc.push '"')
              simp only [List.length_cons]
              omega
            · rw [scanQuoted_quote_other _ _ _ hc2]
              simp
        · rw [scanQuoted_other _ _ _ hc]
          have hlen : rest.length ≤ n := by simp at h; omega
          have := ih rest hlen (acc.push c)
          simp only [List.length_cons]
          omega
  exact H cs.length cs le_rfl acc

def scanUnquoted_length (cs : List Char) (acc : String) :
    (scanUnquoted cs acc).2.length ≤ cs.length := by
  induction cs generalizing acc with
  | nil => simp [scanUnquoted]
  | cons c rest ih =>
    simp only [scanUnquoted]
    split
    · simp
    · exact le_trans (ih _) (by simp)

/-- The remaining input of the unquoted scanner is empty or starts with
the delimiter that stopped it. -/
def scanUnquoted_stops (cs : List Char) (acc : String) (c2 : Char) (r2 : List Char)
    (h : (scanUnquoted cs acc).2 = c2 :: r2) : c2 = '\t' ∨ c2 = '\n' := by
  induction cs generalizing acc with
  | nil => simp [scanUnquoted] at h
  | cons c rest ih =>
    simp only [scanUnquoted] at h
    split at h
    · rename_i hd
      simp only [List.cons.injEq] at h
      obtain ⟨rfl, -⟩ := h
      exact hd
    · exact ih _ h

/-- The main loop of `parseClipboardText`: `row` is the row being built,
`rows` the rows finished so far.  At end of input the final row is pushed
when `row.length > 0 || rows.length > 0`.  After a field, a tab delimiter
is skipped, a newline finishes the row, anything else (only possible right
after a closing quote, or at end of input) re-enters the loop unconsumed. -/
def parseRows : List Char → List String → List (List String) → List (List String)
  | [], row, rows => if row.length > 0 ∨ rows.length > 0 then rows ++ [row] else rows
  | ch :: rest, row, rows =>
    if ch = '"' then
      let p := scanQuoted rest ""
      let row2 := row ++ [p.1]
      match hr : p.2 with
      | [] => parseRows [] row2 rows
      | d :: ds =>
        if d = '\t' then parseRows ds row2 rows
        else if d = '\n' then parseRows ds [] (rows ++ [row2])
        else parseRows (d :: ds) row2 rows
    else
      let p := scanUnquoted (ch :: rest) ""
      let row2 := row ++ [p.1]
      match hr : p.2 with
      | [] => parseRows [] row2 rows
      | d :: ds =>
        if d = '\t' then parseRows ds row2 rows
        else if d = '\n' then parseRows ds [] (rows ++ [row2])
        else parseRows (d :: ds) row2 rows
termination_by cs _ _ => cs.length
decreasing_by
  · simp
  · have h1 := scanQuoted_length rest ""
    rw [hr] at h1
    simp at h1 ⊢
    omega
  · have h1 := scanQuoted_length rest ""
    rw [hr] at h1
    simp at h1 ⊢
    omega
  · have h1 := scanQuoted_length rest ""
    rw [hr] at h1
    simp at h1 ⊢
    omega
  · simp
  · have h1 := scanUnquoted_length (ch :: rest) ""
    rw [hr] at h1
    simp at h1 ⊢
    omega
  · have h1 := scanUnquoted_length (ch :: rest) ""
    rw [hr] at h1
    simp at h1 ⊢
    omega
  · rename_i h2 h3
    rcases scanUnquoted_stops _ _ _ _ hr with h | h
    · exact absurd h h2
    · exact absurd h h3

/-- Is a parsed row "empty": no fields, or a single empty field
(`lastRow.length === 0 || (lastRow.length === 1 && lastRow[0] === '')`). -/
def isEmptyRow : List String → Bool
  | [] => true
  | [s] => s == ""
  | _ => false

/-- The trailing cleanup loop of `parseClipboardText`: pop the last row
while it is empty.  Expressed as dropping the longest empty suffix. -/
def dropTrailingEmptyRows (rows : List (List String)) : List (List String) :=
  (rows.reverse.dropWhile isEmptyRow).reverse

/-- The rows produced by the parsing loop, before trailing-row cleanup. -/
def rawParsedRows (text : String) : List (List String) :=
  parseRows (normEOL text.data) [] []

/-- `parseClipboardText` from clipboard.ts. -/
def parseClipboardText (text : String) : List (List String) :=
  dropTrailingEmptyRows (rawParsedRows text)

/-- The behaviour the spec sentence describes, for comparison: drop at
most ONE trailing empty row ("a single trailing empty row ... must be
dropped").  Not the source behaviour — see the counterexample below. -/
def dropOneTrailingEmptyRow (rows : List (List String)) : List (List String) :=
  match rows.reverse with
  | [] => []
  | last :: front => if isEmptyRow last then front.reverse else rows

/-- `parseValueForColumn` from clipboard.ts: per-column coercion of a
pasted string. -/
def parseValueForColumn (raw : String) (col : ColumnDefinition) : Value :=
  if raw = "" then .vNull
  else if col.type = some "number" then
    match numParse raw with
    | some n => .vNum n
    | none => .vStr raw
  else if col.type = some "boolean" then
    .vBool (raw.toLower = "true" ∨ raw = "1")
  else .vStr raw

/-! ### Selection state (selection.ts) -/

/-- The active cell position. -/
structure CellPosition where
  row : Int
  col : Int
deriving DecidableEq, Repr

/-- A rectangular range of cells. -/
structure CellRange where
  startRow : Int
  startCol : Int
  endRow : Int
  endCol : Int
deriving DecidableEq, Repr

/-- `normalizeRange`: returns the normalized range (start ≤ end). -/
def normalizeRange (r : CellRange) : CellRange :=
  { startRow := min r.startRow r.endRow
    startCol := min r.startCol r.endCol
    endRow := max r.startRow r.endRow
    endCol := max r.startCol r.endCol }

/-- `SelectionState`: active cell state and range selection. -/
structure SelectionState where
  activeCell : Option CellPosition := none
  rangeAnchor : Option CellPosition := none
  range : Option CellRange := none
  rowCount : Int := 0
  colCount : Int := 0
deriving DecidableEq, Repr

def SelectionState.setDimensions (s : SelectionState) (rowCount colCount : Int) :
    SelectionState :=
  { s with rowCount := rowCount, colCount := colCount }

/-- `setActive`: bounds-checked; out-of-bounds is a no-op; on success
clears anchor and range. -/
def SelectionState.setActive (s : SelectionState) (row col : Int) : SelectionState :=
  if row < 0 ∨ row ≥ s.rowCount ∨ col < 0 ∨ col ≥ s.colCount then s
  else { s with activeCell := some ⟨row, col⟩, rangeAnchor := none, range := none }

/-- `setActiveWithRange`: set the active cell and extend the range from
the anchor, capturing the current active cell as anchor when there is no
anchor yet. -/
def SelectionState.setActiveWithRange (s : SelectionState) (row col : Int) :
    SelectionState :=
  if row < 0 ∨ row ≥ s.rowCount ∨ col < 0 ∨ col ≥ s.colCount then s
  else
    let anchor := if s.rangeAnchor.isNone ∧ s.activeCell.isSome
      then s.activeCell else s.rangeAnchor
    let rng := match anchor with
      | some a => some (normalizeRange ⟨a.row, a.col, row, col⟩)
      | none => s.range
    { s with activeCell := some ⟨row, col⟩, rangeAnchor := anchor, range := rng }

/-! ### Undo stack (undo.ts / models/types.ts) -/

/-- `UndoStack`, generic over the stored action type.  `maxSize` defaults
to `DEFAULT_MAX_UNDO = 100`. -/
structure UndoStack (α : Type) where
  undoStack : List α := []
  redoStack : List α := []
  maxSize : Nat := 100

/-- The freshly constructed stack. -/
def UndoStack.initial (α : Type) : UndoStack α := {}

/-- `push(action)`: append, shift the oldest entry off when the length
exceeds `maxSize`, clear the redo stack. -/
def UndoStack.push (s : UndoStack α) (a : α) : UndoStack α :=
  let l := s.undoStack ++ [a]
  { s with
    undoStack := if l.length > s.maxSize then l.tail else l
    redoStack := [] }

/-- The `maxSize` setter: clamp to a minimum of 1, then shift oldest
entries off until the stack fits. -/
def UndoStack.setMaxSize (s : UndoStack α) (value : Int) : UndoStack α :=
  let m := (max 1 value).toNat
  { s with maxSize := m, undoStack := s.undoStack.drop (s.undoStack.length - m) }

/-- `undo()`: pop the most recent action onto the redo stack; returns the
popped action (`none` when there is nothing to undo). -/
def UndoStack.popUndo (s : UndoStack α) : UndoStack α × Option α :=
  match s.undoStack.getLast? with
  | none => (s, none)
  | some a =>
    ({ s with undoStack := s.undoStack.dropLast, redoStack := s.redoStack ++ [a] },
     some a)

/-- `redo()`: pop the most recently undone action back onto the undo
stack. -/
def UndoStack.popRedo (s : UndoStack α) : UndoStack α × Option α :=
  match s.redoStack.getLast? with
  | none => (s, none)
  | some a =>
    ({ s with redoStack := s.redoStack.dropLast, undoStack := s.undoStack ++ [a] },
     some a)

/-- `clear()`: empty both stacks. -/
def UndoStack.clearAll (s : UndoStack α) : UndoStack α :=
  { s with undoStack := [], redoStack := [] }

/-- The states an `UndoStack` can reach through its public interface. -/
inductive UndoStack.Reachable : UndoStack α → Prop where
  | init : Reachable (UndoStack.initial α)
  | push {s : UndoStack α} (a : α) : Reachable s → Reachable (s.push a)
  | undo {s : UndoStack α} : Reachable s → Reachable s.popUndo.1
  | redo {s : UndoStack α} : Reachable s → Reachable s.popRedo.1
  | clear {s : UndoStack α} : Reachable s → Reachable s.clearAll
  | setMax {s : UndoStack α} (v : Int) : Reachable s → Reachable (s.setMaxSize v)

/-- The states an `UndoStack` can reach without using `redo()`.  `redo()`
re-pushes onto the undo stack without trimming, so it can exceed
`maxSize` after the limit was shrunk; the length bound holds on the
redo-free fragment. -/
inductive UndoStack.ReachableNoRedo : UndoStack α → Prop where
  | init : ReachableNoRedo (UndoStack.initial α)
  | push {s : UndoStack α} (a : α) : ReachableNoRedo s → ReachableNoRedo (s.push a)
  | undo {s : UndoStack α} : ReachableNoRedo s → ReachableNoRedo s.popUndo.1
  | clear {s : UndoStack α} : ReachableNoRedo s → ReachableNoRedo s.clearAll
  | setMax {s : UndoStack α} (v : Int) :
      ReachableNoRedo s → ReachableNoRedo (s.setMaxSize v)

/-! ### Grid controller (flex-table.ts) -/

/-- JS object property write `row[key] = v`: overwrite in place, or append
a new property. -/
def setVal : Row → String → Value → Row
  | [], k, v => [(k, v)]
  | (k1, v1) :: rest, k, v =>
    if k1 == k then (k1, v) :: rest else (k1, v1) :: setVal rest k v

/-- JS `Map.get` on the column-width map. -/
def mapGet (m : List (String × Int)) (k : String) : Option Int :=
  (m.find? (fun p => p.1 == k)).map (fun p => p.2)

/-- JS `Map.set`: overwrite in place keeping insertion order, or append. -/
def mapSet : List (String × Int) → String → Int → List (String × Int)
  | [], k, v => [(k, v)]
  | (k1, v1) :: rest, k, v =>
    if k1 == k then (k1, v) :: rest else (k1, v1) :: mapSet rest k v

/-- JS `Map.delete`. -/
def mapDelete (m : List (String × Int)) (k : String) : List (String × Int) :=
  m.filter (fun p => !(p.1 == k))

/-- The state the undo/redo closures capture and mutate: the host-owned
data and columns plus the engine's filter/sort/width state. -/
structure GridCore where
  data : List Row
  columns : List ColumnDefinition
  filters : List ColumnFilter
  sortCriteria : List SortCriteria
  columnWidths : List (String × Int)

/-- An `UndoAction`: label plus the two closures, modelled as functions on
the state they capture and mutate. -/
structure UndoAction where
  label : String
  runUndo : GridCore → GridCore
  runRedo : GridCore → GridCore

/-- The `FlexTable` component state relevant to the embedded operations. -/
structure GridState where
  core : GridCore
  activeCell : Option CellPosition
  maxRows : Int
  undo : UndoStack UndoAction
  filteredIndices : List Nat
  sortedIndices : List Nat

/-- `visibleColumns`: `columns.filter(col => !col.hidden)`. -/
def visibleColumns (core : GridCore) : List ColumnDefinition :=
  core.columns.filter (fun c => !(c.hidden == some true))

/-- `_recomputeView`: the filter → sort pipeline, recomputed into the
cached index arrays. -/
def recomputeView (core : GridCore) : List Nat × List Nat :=
  let filtered := (computeFilteredIndices core.data core.filters).1
  let sorted :=
    if core.filters.isEmpty ∧ core.sortCriteria.isEmpty then
      List.range core.data.length
    else if core.sortCriteria.isEmpty then filtered
    else
      let filteredData := filtered.map (rowAt core.data)
      let sortedOfFiltered :=
        computeSortedIndices filteredData core.sortCriteria (visibleColumns core)
      sortedOfFiltered.map (fun si => filtered.getD si 0)
  (filtered, sorted)

/-- `_toDataIndex`: `this._sortedIndices[visualRow] ?? visualRow`. -/
def toDataIndex (sortedIndices : List Nat) (visualRow : Nat) : Nat :=
  sortedIndices.getD visualRow visualRow

/-- `_createEmptyRow`: a fresh row with a type-appropriate empty value per
column. -/
def createEmptyRow (columns : List ColumnDefinition) : Row :=
  columns.foldl (fun r c =>
    setVal r c.key
      (if c.type = some "number" then .vNum 0
       else if c.type = some "boolean" then .vBool false
       else .vStr "")) []

/-- A single cell change recorded by paste (`{row, col, key, oldValue,
newValue}` with `row` a data index and `col` a visual column index). -/
structure PasteChange where
  row : Nat
  col : Nat
  key : String
  oldValue : Value
  newValue : Value
deriving DecidableEq

/-- The inner paste loop for one parsed row against one data row: writes
each cell left to right (stopping at the last visible column) and records
the changes. -/
def pasteRow (rowData : Row) (cols : List ColumnDefinition) (ac : Nat)
    (cells : List String) (dataRow : Nat) : Row × List PasteChange :=
  ((List.range cells.length).takeWhile (fun c => ac + c < cols.length)).foldl
    (fun acc c =>
      let col := cols.getD (ac + c) { key := "" }
      let oldValue := getVal acc.1 col.key
      let newValue := parseValueForColumn (cells.getD c "") col
      (setVal acc.1 col.key newValue,
       acc.2 ++ [{ row := dataRow, col := ac + c, key := col.key,
                   oldValue := oldValue, newValue := newValue }]))
    (rowData, [])

/-- The outer paste loop: for each parsed row (stopping at the last
visible row), write the parsed values into the mapped data row. -/
def pasteWrites (data : List Row) (sorted : List Nat) (cols : List ColumnDefinition)
    (av ac : Nat) (parsed : List (List String)) (count : Nat) :
    List Row × List PasteChange :=
  ((List.range parsed.length).takeWhile (fun r => av + r < count)).foldl
    (fun acc r =>
      let visualRow := av + r
      let dataRow := toDataIndex sorted visualRow
      let p := pasteRow (rowAt acc.1 dataRow) cols ac (parsed.getD r []) dataRow
      (acc.1.set dataRow p.1, acc.2 ++ p.2))
    (data, [])

/-- The `for (const c of changes)` loop of the paste undo closure,
restricted to a single row: set each recorded key back to its old value. -/
def rowUndo (chs : List PasteChange) (row : Row) : Row :=
  chs.foldl (fun row ch => setVal row ch.key ch.oldValue) row

/-- The `for (const c of changes)` loop of the paste undo closure over the
whole data array. -/
def dataUndo (chs : List PasteChange) (d : List Row) : List Row :=
  chs.foldl (fun d ch => d.set ch.row (setVal (rowAt d ch.row) ch.key ch.oldValue)) d

/-- The undo closure of the paste action: restore old values, then remove
the auto-added rows from the end. -/
def pasteUndoFn (changes : List PasteChange) (addedCount : Nat) (g : GridCore) :
    GridCore :=
  let d := dataUndo changes g.data
  { g with data := d.take (d.length - addedCount) }

/-- The redo closure of the paste action: re-append empty rows (built from
the columns at redo time, as the source closure does), then re-apply the
new values. -/
def pasteRedoFn (changes : List PasteChange) (addedCount : Nat) (g : GridCore) :
    GridCore :=
  let d0 := g.data ++ List.replicate addedCount (createEmptyRow g.columns)
  let d2 := changes.foldl
    (fun d ch => d.set ch.row (setVal (rowAt d ch.row) ch.key ch.newValue)) d0
  { g with data := d2 }

/-- `_handlePaste` from flex-table.ts, after the clipboard text has been
read and parsed into `parsed` (the asynchronous clipboard read and
`parseClipboardText` happen before this logic).  An active cell holds
in-bounds visual coordinates, converted to `Nat` here. -/
def handlePasteBody (s : GridState) (active : CellPosition)
    (parsed : List (List String)) : GridState :=
  let av : Nat := active.row.toNat
  let ac : Nat := active.col.toNat
  let cols := visibleColumns s.core
  let required : Int := (av : Int) + parsed.length
  let limit : Int := if s.maxRows > 0 then s.maxRows else required
  let addedCount : Nat := (min required limit - s.core.data.length).toNat
  let data1 := s.core.data ++
    List.replicate addedCount (createEmptyRow s.core.columns)
  let core1 := { s.core with data := data1 }
  let view1 := if addedCount > 0 then recomputeView core1
    else (s.filteredIndices, s.sortedIndices)
  let w := pasteWrites data1 view1.2 cols av ac parsed view1.2.length
  let core2 := { core1 with data := w.1 }
  let undo2 :=
    if w.2.length > 0 ∨ addedCount > 0 then
      s.undo.push
        { label := "paste"
          runUndo := pasteUndoFn w.2 addedCount
          runRedo := pasteRedoFn w.2 addedCount }
    else s.undo
  { s with core := core2, undo := undo2,
           filteredIndices := view1.1, sortedIndices := view1.2 }

/-- `_handlePaste` dispatch: no active cell or an empty parse is a no-op. -/
def handlePaste (s : GridState) (parsed : List (List String)) : GridState :=
  match s.activeCell with
  | none => s
  | some active =>
    if parsed.isEmpty then s
    else handlePasteBody s active parsed

/-- `deleteColumn` from flex-table.ts. -/
def deleteColumn (s : GridState) (key : String) : GridState :=
  match s.core.columns.findIdx? (fun c => c.key == key) with
  | none => s
  | some colIndex =>
    let removed := s.core.columns.getD colIndex { key := "" }
    let hadFilter := s.core.filters.find? (fun f => f.key == key)
    let hadSort := s.core.sortCriteria.find? (fun c => c.key == key)
    let hadWidth := mapGet s.core.columnWidths key
    let core2 : GridCore :=
      { s.core with
        filters := s.core.filters.filter (fun f => !(f.key == key))
        sortCriteria := s.core.sortCriteria.filter (fun c => !(c.key == key))
        columnWidths := mapDelete s.core.columnWidths key
        columns := s.core.columns.filter (fun c => !(c.key == key)) }
    let action : UndoAction :=
      { label := "column-delete"
        runUndo := fun g =>
          { g with
            columns := g.columns.take colIndex ++ [removed] ++ g.columns.drop colIndex
            filters := match hadFilter with
              | some f => g.filters ++ [f]
              | none => g.filters
            sortCriteria := match hadSort with
              | some c => g.sortCriteria ++ [c]
              | none => g.sortCriteria
            columnWidths := match hadWidth with
              | some w => mapSet g.columnWidths key w
              | none => g.columnWidths }
        runRedo := fun g =>
          { g with
            filters := g.filters.filter (fun f => !(f.key == key))
            sortCriteria := g.sortCriteria.filter (fun c => !(c.key == key))
            columnWidths := mapDelete g.columnWidths key
            columns := g.columns.filter (fun c => !(c.key == key)) } }
    let undo2 := s.undo.push action
    let active2 :=
      match s.activeCell with
      | some a => if a.col ≥ (visibleColumns core2).length then none else s.activeCell
      | none => none
    { s with core := core2, undo := undo2, activeCell := active2 }

/-- `moveColumn` from flex-table.ts. -/
def moveColumn (s : GridState) (key : String) (newIndex : Int) : GridState :=
  match s.core.columns.findIdx? (fun c => c.key == key) with
  | none => s
  | some oldIndex =>
    let clamped : Nat := (max 0 (min ((s.core.columns.length : Int) - 1) newIndex)).toNat
    if oldIndex = clamped then s
    else
      let col := s.core.columns.getD oldIndex { key := "" }
      let without := s.core.columns.take oldIndex ++ s.core.columns.drop (oldIndex + 1)
      let newCols := without.take clamped ++ [col] ++ without.drop clamped
      let action : UndoAction :=
        { label := "column-reorder"
          runUndo := fun g =>
            let w := g.columns.take clamped ++ g.columns.drop (clamped + 1)
            { g with columns := w.take oldIndex ++ [col] ++ w.drop oldIndex }
          runRedo := fun g =>
            let w := g.columns.take oldIndex ++ g.columns.drop (oldIndex + 1)
            { g with columns := w.take clamped ++ [col] ++ w.drop clamped } }
      { s with core := { s.core with columns := newCols }, undo := s.undo.push action }

/-- The `visibleRange` getter: virtual-scroll windowing arithmetic with
`headerHeight = rowHeight + 8` and `OVERSCAN = 5`.  `Math.floor` of the
non-negative quotient is `Nat` division; `Math.ceil(vh/rh)` is
`(vh + rh - 1) / rh` for `rh > 0`. -/
def visibleRange (scrollTop : Int) (rowHeight : Nat) (viewportHeight : Nat)
    (totalVisibleRows : Nat) : Nat × Nat :=
  let headerHeight := rowHeight + 8
  let adjusted : Nat := (scrollTop - (headerHeight : Int)).toNat
  let q := adjusted / rowHeight
  let visibleCount := (viewportHeight + rowHeight - 1) / rowHeight
  (q - 5, min totalVisibleRows (q + visibleCount + 5))

/-! ## Theorems -/

/-- The code's `Math.ceil(viewportHeight / rowHeight)` is
`(vh + rh - 1) / rh`: the least integer at or above the exact quotient. -/
theorem ceilDiv_spec (vh rh : Nat) (h : 0 < rh) :
    vh ≤ rh * ((vh + rh - 1) / rh) ∧ rh * ((vh + rh - 1) / rh) < vh + rh := by
  have hmod := Nat.div_add_mod (vh + rh - 1) rh
  have hlt : (vh + rh - 1) % rh < rh := Nat.mod_lt _ h
  generalize hp : rh * ((vh + rh - 1) / rh) = p at *
  omega

/-- C8: the rendered window is `start = max(0, floor(adjustedScroll /
rowHeight) - overscan)` and `end = min(totalVisibleRows, floor + ceil(
viewportHeight / rowHeight) + overscan)` with `adjustedScroll =
max(0, scrollTop - headerHeight)` and `overscan = 5`; consequently
`end - start ≤ ceil(viewportHeight / rowHeight) + 2·overscan`,
independent of the total row count. -/
theorem c8_visibleRange_window (scrollTop : Int)
    (rowHeight viewportHeight totalVisibleRows : Nat) (hrh : 0 < rowHeight) :
    (viewportHeight ≤ rowHeight * ((viewportHeight + rowHeight - 1) / rowHeight) ∧
      rowHeight * ((viewportHeight + rowHeight - 1) / rowHeight) <
        viewportHeight + rowHeight) ∧
    ((visibleRange scrollTop rowHeight viewportHeight totalVisibleRows).1 : Int) =
      max 0 ((((scrollTop - ((rowHeight + 8 : Nat) : Int)).toNat / rowHeight : Nat) : Int)
        - 5) ∧
    (visibleRange scrollTop rowHeight viewportHeight totalVisibleRows).2 =
      min totalVisibleRows ((scrollTop - ((rowHeight + 8 : Nat) : Int)).toNat / rowHeight
        + (viewportHeight + rowHeight - 1) / rowHeight + 5) ∧
    ((visibleRange scrollTop rowHeight viewportHeight totalVisibleRows).2 : Int) -
      ((visibleRange scrollTop rowHeight viewportHeight totalVisibleRows).1 : Int) ≤
      (((viewportHeight + rowHeight - 1) / rowHeight : Nat) : Int) + 2 * 5 := by
  refine ⟨ceilDiv_spec viewportHeight rowHeight hrh, ?_, ?_, ?_⟩
  all_goals simp only [visibleRange]
  all_goals omega

/-- C8 witness: concrete instantiation at `scrollTop = 100`,
`rowHeight = 32`, `viewportHeight = 320`, `totalVisibleRows = 10000`. -/
theorem c8_visibleRange_window_witness :
    (0 : Nat) < 32 ∧
    ((visibleRange 100 32 320 10000).2 : Int) - ((visibleRange 100 32 320 10000).1 : Int) ≤
      (((320 + 32 - 1) / 32 : Nat) : Int) + 2 * 5 :=
  ⟨by decide, (c8_visibleRange_window 100 32 320 10000 (by decide)).2.2.2⟩

/-- C10: `setActiveWithRange` in bounds from the empty selection state
(no active cell, no anchor, no range) sets the active cell but creates
no anchor and no range: the selection becomes the single-cell state. -/
theorem c10_setActiveWithRange_empty (s : SelectionState) (row col : Int)
    (hactive : s.activeCell = none) (hanchor : s.rangeAnchor = none)
    (hrange : s.range = none)
    (hrow0 : 0 ≤ row) (hrow1 : row < s.rowCount)
    (hcol0 : 0 ≤ col) (hcol1 : col < s.colCount) :
    (s.setActiveWithRange row col).activeCell = some ⟨row, col⟩ ∧
    (s.setActiveWithRange row col).rangeAnchor = none ∧
    (s.setActiveWithRange row col).range = none := by
  have hb : ¬(row < 0 ∨ row ≥ s.rowCount ∨ col < 0 ∨ col ≥ s.colCount) := by omega
  simp only [SelectionState.setActiveWithRange, if_neg hb, hactive, hanchor, hrange]
  simp

/-- C10 witness: a 3×3 grid with empty selection, target `(1, 2)`. -/
theorem c10_setActiveWithRange_empty_witness :
    (({ rowCount := 3, colCount := 3 } : SelectionState).setActiveWithRange 1 2).activeCell
        = some ⟨1, 2⟩ ∧
    (({ rowCount := 3, colCount := 3 } : SelectionState).setActiveWithRange 1 2).rangeAnchor
        = none ∧
    (({ rowCount := 3, colCount := 3 } : SelectionState).setActiveWithRange 1 2).range
        = none :=
  c10_setActiveWithRange_empty { rowCount := 3, colCount := 3 } 1 2 rfl rfl rfl
    (by decide) (by decide) (by decide) (by decide)

/-- C3 counterexample: a reachable `UndoStack` state whose undo stack
holds MORE than `maxSize` actions.  Push two actions, undo both, shrink
`maxSize` to 1 (`redoStack` is not trimmed), then redo both: the undo
stack holds 2 actions while `maxSize = 1`. -/
theorem c3_counterexample :
    UndoStack.Reachable
      ((((((((UndoStack.initial Nat).push 0).push 1).popUndo.1).popUndo.1).setMaxSize
        1).popRedo.1).popRedo.1) ∧
    ((((((((UndoStack.initial Nat).push 0).push 1).popUndo.1).popUndo.1).setMaxSize
        1).popRedo.1).popRedo.1).maxSize = 1 ∧
    ((((((((UndoStack.initial Nat).push 0).push 1).popUndo.1).popUndo.1).setMaxSize
        1).popRedo.1).popRedo.1).undoStack.length = 2 :=
  ⟨.redo (.redo (.setMax 1 (.undo (.undo (.push 1 (.push 0 .init)))))),
   by decide, by decide⟩

/-- C3 (amended): `maxSize ≥ 1` at every reachable state, and the undo
stack holds at most `maxSize` actions at every state reachable without
`redo()` (redo re-pushes undone actions without trimming and can exceed a
shrunk limit — see the counterexample); `push` appends, drops the oldest
entry when the length would exceed `maxSize`, and empties the redo stack;
the `maxSize` setter clamps to a minimum of 1 and immediately trims
oldest entries until the stack fits. -/
theorem c3_undoStack_invariants (α : Type) (s : UndoStack α) :
    (s.ReachableNoRedo → 1 ≤ s.maxSize ∧ s.undoStack.length ≤ s.maxSize) ∧
    (s.Reachable → 1 ≤ s.maxSize) ∧
    (s.undoStack.length ≤ s.maxSize → ∀ a : α,
      (s.push a).redoStack = [] ∧
      (s.push a).undoStack =
        (s.undoStack ++ [a]).drop (s.undoStack.length + 1 - s.maxSize) ∧
      (s.push a).undoStack.length ≤ s.maxSize) ∧
    (∀ v : Int, (s.setMaxSize v).maxSize = max 1 v.toNat ∧
      (s.setMaxSize v).undoStack =
        s.undoStack.drop (s.undoStack.length - max 1 v.toNat) ∧
      (s.setMaxSize v).undoStack.length ≤ max 1 v.toNat) := by
  have hsetmax : ∀ t : UndoStack α, ∀ v : Int,
      (t.setMaxSize v).maxSize = max 1 v.toNat ∧
      (t.setMaxSize v).undoStack =
        t.undoStack.drop (t.undoStack.length - max 1 v.toNat) ∧
      (t.setMaxSize v).undoStack.length ≤ max 1 v.toNat := by
    intro t v
    have hm : (max 1 v).toNat = max 1 v.toNat := by omega
    refine ⟨hm, by rw [UndoStack.setMaxSize, hm], ?_⟩
    simp only [UndoStack.setMaxSize, hm, List.length_drop]
    omega
  have hpush : ∀ t : UndoStack α, t.undoStack.length ≤ t.maxSize → ∀ a : α,
      (t.push a).redoStack = [] ∧
      (t.push a).undoStack =
        (t.undoStack ++ [a]).drop (t.undoStack.length + 1 - t.maxSize) ∧
      (t.push a).undoStack.length ≤ t.maxSize := by
    intro t hlen a
    refine ⟨rfl, ?_, ?_⟩ <;> simp only [UndoStack.push]
    · split
      · rename_i hgt
        simp at hgt
        have : t.undoStack.length + 1 - t.maxSize = 1 := by omega
        rw [this, List.drop_one]
      · rename_i hle
        simp at hle
        have : t.undoStack.length + 1 - t.maxSize = 0 := by omega
        rw [this, List.drop_zero]
    · split
      · rename_i hgt
        simp only [List.length_tail, List.length_append, List.length_singleton] at hgt ⊢
        omega
      · rename_i hle
        simp only [not_lt, List.length_append, List.length_singleton] at hle ⊢
        omega
  refine ⟨?_, ?_, hpush s, hsetmax s⟩
  · intro h
    induction h with
    | init => simp [UndoStack.initial]
    | push a hprev ih =>
      rename_i t
      exact ⟨ih.1, ((hpush t ih.2) a).2.2⟩
    | undo hprev ih =>
      rename_i t
      constructor
      · simp only [UndoStack.popUndo]
        split <;> exact ih.1
      · simp only [UndoStack.popUndo]
        split
        · exact ih.2
        · simp only [List.length_dropLast]
          omega
    | clear hprev ih => exact ⟨ih.1, by simp [UndoStack.clearAll]⟩
    | setMax v hprev ih =>
      rename_i t
      refine ⟨?_, (hsetmax t v).2.2.trans_eq (hsetmax t v).1.symm⟩
      rw [(hsetmax t v).1]
      omega
  · intro h
    induction h with
    | init => simp [UndoStack.initial]
    | push a hprev ih => exact ih
    | undo hprev ih => simp only [UndoStack.popUndo]; split <;> exact ih
    | redo hprev ih => simp only [UndoStack.popRedo]; split <;> exact ih
    | clear hprev ih => exact ih
    | setMax v hprev ih =>
      rename_i t
      rw [(hsetmax t v).1]
      omega

/-- C3 witness: concrete instantiation — after one push on a fresh stack
the invariant holds, and a further push keeps the redo stack empty. -/
theorem c3_undoStack_invariants_witness :
    (1 ≤ ((UndoStack.initial Nat).push 7).maxSize ∧
      ((UndoStack.initial Nat).push 7).undoStack.length ≤
        ((UndoStack.initial Nat).push 7).maxSize) ∧
    (((UndoStack.initial Nat).push 7).push 8).redoStack = [] :=
  ⟨(c3_undoStack_invariants Nat ((UndoStack.initial Nat).push 7)).1 (.push 7 .init),
   ((c3_undoStack_invariants Nat ((UndoStack.initial Nat).push 7)).2.2.1
      (by decide) 8).1⟩

/-! Step lemmas for the parser loop (the well-founded equations in
rewrite-friendly form). -/

theorem parseRows_nil (row : List String) (rows : List (List String)) :
    parseRows [] row rows =
      if row.length > 0 ∨ rows.length > 0 then rows ++ [row] else rows := by
  rw [parseRows.eq_def]

theorem parseRows_unquoted_tab (ch : Char) (rest ds : List Char) (f : String)
    (row : List String) (rows : List (List String)) (hq : ch ≠ '"')
    (hs : scanUnquoted (ch :: rest) "" = (f, '\t' :: ds)) :
    parseRows (ch :: rest) row rows = parseRows ds (row ++ [f]) rows := by
  rw [parseRows.eq_def]
  simp only [hq, if_false, reduceIte, hs]
  split
  · rename_i heq
    rw [hs] at heq
    simp at heq
  · rename_i d ds2 heq
    rw [hs] at heq
    simp only [List.cons.injEq] at heq
    obtain ⟨rfl, rfl⟩ := heq
    simp

theorem parseRows_unquoted_newline (ch : Char) (rest ds : List Char) (f : String)
    (row : List String) (rows : List (List String)) (hq : ch ≠ '"')
    (hs : scanUnquoted (ch :: rest) "" = (f, '\n' :: ds)) :
    parseRows (ch :: rest) row rows = parseRows ds [] (rows ++ [row ++ [f]]) := by
  rw [parseRows.eq_def]
  simp only [hq, if_false, reduceIte, hs]
  split
  · rename_i heq
    rw [hs] at heq
    simp at heq
  · rename_i d ds2 heq
    rw [hs] at heq
    simp only [List.cons.injEq] at heq
    obtain ⟨rfl, rfl⟩ := heq
    simp

theorem parseRows_unquoted_end (ch : Char) (rest : List Char) (f : String)
    (row : List String) (rows : List (List String)) (hq : ch ≠ '"')
    (hs : scanUnquoted (ch :: rest) "" = (f, [])) :
    parseRows (ch :: rest) row rows = rows ++ [row ++ [f]] := by
  rw [parseRows.eq_def]
  simp only [hq, if_false, reduceIte, hs]
  split
  · rw [parseRows_nil]
    simp
  · rename_i d ds2 heq
    rw [hs] at heq
    simp at heq

/-- The trailing-empty-row cleanup drops exactly the longest all-empty
suffix: the input splits as the result followed by empty rows, and the
result does not end in an empty row. -/
theorem dropTrailing_decomp (l : List (List String)) :
    (l = dropTrailingEmptyRows l ++ (l.reverse.takeWhile isEmptyRow).reverse ∧
      ∀ r ∈ (l.reverse.takeWhile isEmptyRow).reverse, isEmptyRow r = true) ∧
    ∀ m last, dropTrailingEmptyRows l = m ++ [last] → isEmptyRow last = false := by
  refine ⟨⟨?_, ?_⟩, ?_⟩
  · calc l = l.reverse.reverse := (List.reverse_reverse l).symm
      _ = (l.reverse.takeWhile isEmptyRow ++ l.reverse.dropWhile isEmptyRow).reverse := by
          rw [List.takeWhile_append_dropWhile]
      _ = (l.reverse.dropWhile isEmptyRow).reverse ++
            (l.reverse.takeWhile isEmptyRow).reverse := by
          rw [List.reverse_append]
      _ = dropTrailingEmptyRows l ++ (l.reverse.takeWhile isEmptyRow).reverse := rfl
  · intro r hr
    rw [List.mem_reverse] at hr
    exact List.mem_takeWhile_imp hr
  · intro m last h
    have h2 : l.reverse.dropWhile isEmptyRow = last :: m.reverse := by
      have h3 := congrArg List.reverse h
      rw [dropTrailingEmptyRows, List.reverse_reverse, List.reverse_append] at h3
      simpa using h3
    have h4 := List.head?_dropWhile_not isEmptyRow l.reverse
    rw [h2] at h4
    simpa using h4

/-- Concrete run of the parsing loop on `"a\n\n"`: the raw row list has
TWO trailing empty rows (one from each empty line artifact). -/
theorem rawParsedRows_ann : rawParsedRows "a\n\n" = [["a"], [""], []] := by
  have hd : normEOL "a\n\n".data = ['a', '\n', '\n'] := rfl
  have s1 : scanUnquoted ['a', '\n', '\n'] "" = ("a", ['\n', '\n']) := rfl
  have s2 : scanUnquoted ['\n'] "" = ("", ['\n']) := rfl
  rw [rawParsedRows, hd]
  rw [parseRows_unquoted_newline _ _ _ _ _ _ (by decide) s1]
  simp only [List.nil_append]
  rw [parseRows_unquoted_newline _ _ _ _ _ _ (by decide) s2]
  simp only [List.nil_append, List.append_nil]
  rw [parseRows_nil]
  simp

/-- Concrete value of `parseClipboardText "a\n\n"`: both trailing empty
rows are removed. -/
theorem parseClipboardText_ann : parseClipboardText "a\n\n" = [["a"]] := by
  rw [parseClipboardText, rawParsedRows_ann]
  decide

/-- C5 counterexample: on `"a\n\n"` the parse produces the raw rows
`[["a"], [""], []]`; dropping a SINGLE trailing empty row would keep
`[["a"], [""]]`, but the code's cleanup loop pops every trailing empty
row and returns `[["a"]]`. -/
theorem c5_counterexample :
    parseClipboardText "a\n\n" = [["a"]] ∧
    dropOneTrailingEmptyRow (rawParsedRows "a\n\n") = [["a"], [""]] ∧
    parseClipboardText "a\n\n" ≠ dropOneTrailingEmptyRow (rawParsedRows "a\n\n") := by
  refine ⟨parseClipboardText_ann, ?_, ?_⟩
  · rw [rawParsedRows_ann]; decide
  · rw [parseClipboardText_ann, rawParsedRows_ann]; decide

/-- C5 (amended): `parseClipboardText` drops ALL trailing empty rows
(final parsed rows that are empty or a single empty field) — not just a
single one — and preserves every row before that empty suffix. -/
theorem c5_drops_all_trailing_empty_rows (text : String) :
    (rawParsedRows text = parseClipboardText text ++
        ((rawParsedRows text).reverse.takeWhile isEmptyRow).reverse ∧
      ∀ r ∈ ((rawParsedRows text).reverse.takeWhile isEmptyRow).reverse,
        isEmptyRow r = true) ∧
    ∀ m last, parseClipboardText text = m ++ [last] → isEmptyRow last = false :=
  dropTrailing_decomp (rawParsedRows text)

/-- C5 witness: the amended theorem instantiated at `"a\n\n"`; the
non-empty-last-row consequence is discharged at the concrete result
`[["a"]]`. -/
theorem c5_drops_all_trailing_empty_rows_witness :
    (rawParsedRows "a\n\n" = parseClipboardText "a\n\n" ++
        ((rawParsedRows "a\n\n").reverse.takeWhile isEmptyRow).reverse) ∧
    isEmptyRow ["a"] = false :=
  ⟨(c5_drops_all_trailing_empty_rows "a\n\n").1.1,
   (c5_drops_all_trailing_empty_rows "a\n\n").2 [] ["a"]
     (by rw [parseClipboardText_ann]; rfl)⟩

/-- Removing the element at index `i` and re-inserting it at index `c`
permutes the list: both sides are permutations of `col :: (take ++ drop)`. -/
theorem splice_move_perm (l : List ColumnDefinition) (i c : Nat) (hi : i < l.length) :
    List.Perm
      ((l.take i ++ l.drop (i + 1)).take c ++ [l[i]] ++
        (l.take i ++ l.drop (i + 1)).drop c)
      l := by
  set w : List ColumnDefinition := l.take i ++ l.drop (i + 1) with hw
  have h1 : List.Perm (w.take c ++ [l[i]] ++ w.drop c) (l[i] :: w) := by
    have := @List.perm_middle _ (l[i]) (w.take c) (w.drop c)
    simpa [List.take_append_drop] using this
  have h2 : List.Perm l (l[i] :: w) := by
    conv_lhs => rw [← List.take_append_drop i l, List.drop_eq_getElem_cons hi]
    exact List.perm_middle
  exact h1.trans h2.symm

/-- C9: `moveColumn` clamps the target index into `[0, length - 1]`
(out-of-range targets land on the first or last position), the column
list stays a permutation of the old one (same length, nothing gained or
lost) with the column now at the clamped index, pushing one undo action;
a missing key, or a clamped target equal to the current index, is a no-op
with no undo action pushed. -/
theorem c9_moveColumn (s : GridState) (key : String) (newIndex : Int) :
    (s.core.columns.findIdx? (fun c => c.key == key) = none →
      moveColumn s key newIndex = s) ∧
    (∀ oldIndex clamped, s.core.columns.findIdx? (fun c => c.key == key) = some oldIndex →
      clamped = (max 0 (min ((s.core.columns.length : Int) - 1) newIndex)).toNat →
      (newIndex < 0 → clamped = 0) ∧
      ((s.core.columns.length : Int) ≤ newIndex → clamped = s.core.columns.length - 1) ∧
      (oldIndex = clamped → moveColumn s key newIndex = s) ∧
      (oldIndex ≠ clamped →
        List.Perm (moveColumn s key newIndex).core.columns s.core.columns ∧
        (moveColumn s key newIndex).core.columns.length = s.core.columns.length ∧
        (moveColumn s key newIndex).core.columns.getD clamped { key := "" } =
          s.core.columns.getD oldIndex { key := "" } ∧
        ∃ act, (moveColumn s key newIndex).undo = s.undo.push act)) := by
  constructor
  · intro h
    simp only [moveColumn, h]
  · intro oldIndex clamped hfind hclamp
    obtain ⟨hlt, -, -⟩ := List.findIdx?_eq_some_iff_getElem.mp hfind
    have hcl : clamped ≤ s.core.columns.length - 1 := by omega
    refine ⟨by omega, by omega, ?_, ?_⟩
    · intro heq
      simp only [moveColumn, hfind, ← hclamp, ← heq]
      simp
    · intro hne
      have hne2 : ¬oldIndex = (max 0 (min ((s.core.columns.length : Int) - 1)
          newIndex)).toNat := by omega
      simp only [moveColumn, hfind, if_neg hne2]
      set l := s.core.columns with hl
      set w : List ColumnDefinition := l.take oldIndex ++ l.drop (oldIndex + 1) with hw
      have hgd : l.getD oldIndex { key := "" } = l[oldIndex] := by
        rw [List.getD_eq_getElem?_getD, List.getElem?_eq_getElem hlt]
        rfl
      have hwlen : w.length = l.length - 1 := by
        rw [hw]
        simp
        omega
      have htlen : (w.take clamped).length = clamped := by
        simp
        omega
      refine ⟨?_, ?_, ?_, ⟨_, rfl⟩⟩
      · simp only [hgd, ← hclamp]
        exact splice_move_perm l oldIndex clamped hlt
      · simp only [hgd, ← hclamp]
        exact (splice_move_perm l oldIndex clamped hlt).length_eq
      · simp only [hgd, ← hclamp, hgd]
        rw [List.getD_eq_getElem?_getD, List.append_assoc,
          List.getElem?_append_right (by omega : (w.take clamped).length ≤ clamped)]
        rw [htlen]
        simp

/-- C9 witness: a three-column grid, moving `"b"` (index 1) to the
out-of-range target 99 lands it on the last position. -/
theorem c9_moveColumn_witness :
    (let s : GridState :=
      { core := { data := [], columns := [{ key := "a" }, { key := "b" }, { key := "c" }],
                  filters := [], sortCriteria := [], columnWidths := [] },
        activeCell := none, maxRows := 0, undo := UndoStack.initial UndoAction,
        filteredIndices := [], sortedIndices := [] }
     (moveColumn s "b" 99).core.columns.length = s.core.columns.length ∧
       (moveColumn s "b" 99).core.columns.getD 2 { key := "" } =
         s.core.columns.getD 1 { key := "" }) := by
  have h := (c9_moveColumn
    { core := { data := [], columns := [{ key := "a" }, { key := "b" }, { key := "c" }],
                filters := [], sortCriteria := [], columnWidths := [] },
      activeCell := none, maxRows := 0, undo := UndoStack.initial UndoAction,
      filteredIndices := [], sortedIndices := [] } "b" 99).2 1 2 (by decide) (by decide)
  exact ⟨(h.2.2.2 (by decide)).2.1, (h.2.2.2 (by decide)).2.2.1⟩

/-- If `p` matches exactly one element of `l`, first found at index `i`,
then re-inserting `l[i]` at position `i` of `l.filter !p` restores `l`. -/
theorem filter_unique_restore (l : List ColumnDefinition) (p : ColumnDefinition → Bool)
    (i : Nat) (hfind : l.findIdx? p = some i) (hcount : l.countP p = 1) :
    (l.filter (fun c => !p c)).take i ++ [l.getD i { key := "" }] ++
      (l.filter (fun c => !p c)).drop i = l := by
  obtain ⟨hlt, hp, hfirst⟩ := List.findIdx?_eq_some_iff_getElem.mp hfind
  have hgd : l.getD i { key := "" } = l[i] := by
    rw [List.getD_eq_getElem?_getD, List.getElem?_eq_getElem hlt]
    rfl
  have hdec : l.take i ++ l[i] :: l.drop (i + 1) = l := by
    rw [← List.drop_eq_getElem_cons hlt, List.take_append_drop]
  have htake : (l.take i).filter (fun c => !p c) = l.take i := by
    refine List.filter_eq_self.mpr ?_
    intro a ha
    obtain ⟨j, hj, rfl⟩ := List.mem_iff_getElem.mp ha
    have hj2 : j < i := by simp at hj; omega
    rw [List.getElem_take l]
    simpa using hfirst j hj2
  have hdropcount : (l.drop (i + 1)).countP p = 0 := by
    have := congrArg (List.countP p) hdec
    rw [List.countP_append, List.countP_cons_of_pos _ _ hp] at this
    have htc := congrArg (List.countP p) htake
    rw [List.countP_filter] at htc
    omega
  have hdrop : (l.drop (i + 1)).filter (fun c => !p c) = l.drop (i + 1) := by
    refine List.filter_eq_self.mpr ?_
    intro a ha
    have := List.countP_eq_zero.mp hdropcount a ha
    simpa using this
  have hF : l.filter (fun c => !p c) = l.take i ++ l.drop (i + 1) := by
    conv_lhs => rw [← hdec]
    rw [List.filter_append, List.filter_cons]
    simp only [hp, Bool.not_true, Bool.false_eq_true, if_neg, htake, hdrop]
    simp [hp]
  have hlen : (l.take i).length = i := by simp; omega
  rw [hgd, hF, List.take_left' hlen, List.drop_left' hlen, List.append_assoc,
    List.singleton_append, hdec]

/-- If `p` matches exactly one element `f` of `l` (the one `find?`
returns), appending `f` back to `l.filter !p` is a permutation of `l`. -/
theorem filter_unique_perm {α : Type} (l : List α) (p : α → Bool) (f : α)
    (hfind : l.find? p = some f) (hcount : l.countP p = 1) :
    List.Perm (l.filter (fun a => !p a) ++ [f]) l := by
  induction l with
  | nil => simp at hfind
  | cons x xs ih =>
    by_cases hp : p x
    · have hf : f = x := by
        rw [List.find?_cons_of_pos _ hp] at hfind
        exact (Option.some.injEq .. ▸ hfind).symm
      have hxs : xs.countP p = 0 := by
        rw [List.countP_cons_of_pos _ _ hp] at hcount
        omega
      have hfx : xs.filter (fun a => !p a) = xs := by
        refine List.filter_eq_self.mpr ?_
        intro a ha
        have := List.countP_eq_zero.mp hxs a ha
        simpa using this
      rw [List.filter_cons_of_neg (by simpa using hp), hfx, hf]
      exact List.perm_append_comm
    · rw [List.find?_cons_of_neg _ hp] at hfind
      rw [List.countP_cons_of_neg _ _ hp] at hcount
      rw [List.filter_cons_of_pos (by simpa using hp)]
      exact (ih hfind hcount).cons x

/-- JS `Map` lookup after `set`: the set key reads the new value, other
keys are unaffected. -/
theorem mapGet_mapSet (m : List (String × Int)) (key : String) (w : Int) (k : String) :
    mapGet (mapSet m key w) k = if k = key then some w else mapGet m k := by
  induction m with
  | nil =>
    by_cases hk : k = key
    · simp [mapGet, mapSet, List.find?, hk]
    · have hb : (key == k) = false := by
        simp only [beq_eq_false_iff_ne]
        exact fun h => hk h.symm
      simp [mapGet, mapSet, List.find?, hb, hk]
  | cons x xs ih =>
    by_cases hxkey : x.1 = key
    · have h1 : mapSet (x :: xs) key w = (x.1, w) :: xs := by
        simp [mapSet, hxkey]
      rw [h1]
      by_cases hxk : x.1 = k
      · have hk : k = key := hxk.symm.trans hxkey
        simp [mapGet, List.find?, hxk, hk]
      · have hxkb : (x.1 == k) = false := by simpa using hxk
        have hk : ¬k = key := fun h => hxk (hxkey.trans h.symm)
        simp [mapGet, List.find?, hxkb, hk]
    · have h1 : mapSet (x :: xs) key w = x :: mapSet xs key w := by
        simp [mapSet, hxkey]
      rw [h1]
      by_cases hxk : x.1 = k
      · have hk : ¬k = key := fun h => hxkey (hxk.trans h)
        simp [mapGet, List.find?, hxk, hk]
      · have hxkb : (x.1 == k) = false := by simpa using hxk
        have lhs1 : mapGet (x :: mapSet xs key w) k = mapGet (mapSet xs key w) k := by
          simp [mapGet, List.find?, hxkb]
        have rhs1 : mapGet (x :: xs) k = mapGet xs k := by
          simp [mapGet, List.find?, hxkb]
        rw [lhs1, rhs1, ih]

/-- JS `Map` lookup after `delete`: the deleted key reads nothing, other
keys are unaffected. -/
theorem mapGet_mapDelete (m : List (String × Int)) (key k : String) :
    mapGet (mapDelete m key) k = if k = key then none else mapGet m k := by
  induction m with
  | nil => simp [mapGet, mapDelete, List.find?]
  | cons x xs ih =>
    by_cases hxkey : x.1 = key
    · have h1 : mapDelete (x :: xs) key = mapDelete xs key := by
        simp [mapDelete, List.filter_cons, hxkey]
      rw [h1, ih]
      by_cases hk : k = key
      · simp [hk]
      · have hxk : (x.1 == k) = false := by
          simp only [hxkey, beq_eq_false_iff_ne]
          exact fun h => hk h.symm
        simp [mapGet, List.find?, hxk, hk]
    · have h1 : mapDelete (x :: xs) key = x :: mapDelete xs key := by
        simp [mapDelete, List.filter_cons, hxkey]
      rw [h1]
      by_cases hxk : x.1 = k
      · have hk : ¬k = key := fun h => hxkey (hxk.trans h)
        simp [mapGet, List.find?, hxk, hk]
      · have hxkb : (x.1 == k) = false := by simpa using hxk
        have lhs1 : mapGet (x :: mapDelete xs key) k = mapGet (mapDelete xs key) k := by
          simp [mapGet, List.find?, hxkb]
        have rhs1 : mapGet (x :: xs) k = mapGet xs k := by
          simp [mapGet, List.find?, hxkb]
        rw [lhs1, rhs1, ih]

/-- C7: `deleteColumn` with an unknown key is a complete no-op (columns,
filters, sort criteria, widths and undo history unchanged, nothing
pushed); with an existing key it also purges the filter, sort criterion
and cached width for that key as part of the single pushed action, and
that action's undo closure restores the column together with the purged
filter, sort criterion and width (the lists up to permutation, the width
map pointwise). -/
theorem c7_deleteColumn (s : GridState) (key : String) :
    (s.core.columns.findIdx? (fun c => c.key == key) = none → deleteColumn s key = s) ∧
    (∀ colIndex, s.core.columns.findIdx? (fun c => c.key == key) = some colIndex →
      (deleteColumn s key).core.filters =
        s.core.filters.filter (fun f => !(f.key == key)) ∧
      (deleteColumn s key).core.sortCriteria =
        s.core.sortCriteria.filter (fun c => !(c.key == key)) ∧
      mapGet (deleteColumn s key).core.columnWidths key = none ∧
      (deleteColumn s key).core.columns =
        s.core.columns.filter (fun c => !(c.key == key)) ∧
      ∃ act, (deleteColumn s key).undo = s.undo.push act ∧
        (s.core.columns.countP (fun c => c.key == key) = 1 →
          (act.runUndo (deleteColumn s key).core).columns = s.core.columns) ∧
        (s.core.filters.countP (fun f => f.key == key) ≤ 1 →
          List.Perm (act.runUndo (deleteColumn s key).core).filters s.core.filters) ∧
        (s.core.sortCriteria.countP (fun c => c.key == key) ≤ 1 →
          List.Perm (act.runUndo (deleteColumn s key).core).sortCriteria
            s.core.sortCriteria) ∧
        (∀ k, mapGet (act.runUndo (deleteColumn s key).core).columnWidths k =
          mapGet s.core.columnWidths k)) := by
  constructor
  · intro h
    simp only [deleteColumn, h]
  · intro colIndex hfind
    refine ⟨by simp only [deleteColumn, hfind], by simp only [deleteColumn, hfind],
      ?_, by simp only [deleteColumn, hfind], ?_⟩
    · simp only [deleteColumn, hfind]
      rw [mapGet_mapDelete]
      simp
    · refine ⟨_, by simp only [deleteColumn, hfind]; rfl, ?_, ?_, ?_, ?_⟩
      · intro hcount
        simp only [deleteColumn, hfind]
        exact filter_unique_restore s.core.columns _ colIndex hfind hcount
      · intro hcount
        simp only [deleteColumn, hfind]
        cases hf : s.core.filters.find? (fun f => f.key == key) with
        | none =>
          simp only [hf]
          have : s.core.filters.filter (fun f => !(f.key == key)) = s.core.filters := by
            refine List.filter_eq_self.mpr ?_
            intro a ha
            simpa using List.find?_eq_none.mp hf a ha
          rw [this]
        | some f =>
          simp only [hf]
          have hmem := List.mem_of_find?_eq_some hf
          have hpf := List.find?_some hf
          have hpos : 0 < s.core.filters.countP (fun f => f.key == key) :=
            List.countP_pos_iff.mpr ⟨f, hmem, hpf⟩
          exact filter_unique_perm s.core.filters _ f hf (by omega)
      · intro hcount
        simp only [deleteColumn, hfind]
        cases hf : s.core.sortCriteria.find? (fun c => c.key == key) with
        | none =>
          simp only [hf]
          have : s.core.sortCriteria.filter (fun c => !(c.key == key))
              = s.core.sortCriteria := by
            refine List.filter_eq_self.mpr ?_
            intro a ha
            simpa using List.find?_eq_none.mp hf a ha
          rw [this]
        | some c =>
          simp only [hf]
          have hmem := List.mem_of_find?_eq_some hf
          have hpf := List.find?_some hf
          have hpos : 0 < s.core.sortCriteria.countP (fun c => c.key == key) :=
            List.countP_pos_iff.mpr ⟨c, hmem, hpf⟩
          exact filter_unique_perm s.core.sortCriteria _ c hf (by omega)
      · intro k
        simp only [deleteColumn, hfind]
        cases hw : mapGet s.core.columnWidths key with
        | none =>
          simp only [hw]
          rw [mapGet_mapDelete]
          split
          · rename_i hk
            rw [hk, hw]
          · rfl
        | some w =>
          simp only [hw]
          rw [mapGet_mapSet]
          split
          · rename_i hk
            rw [hk, hw]
          · rw [mapGet_mapDelete]
            simp_all

/-- C7 witness: a concrete two-column grid with a sort criterion and a
cached width on `"b"`: deleting `"b"` purges them and the pushed action's
undo restores columns, criteria, and widths. -/
theorem c7_deleteColumn_witness :
    (let s : GridState :=
      { core := { data := [], columns := [{ key := "a" }, { key := "b" }],
                  filters := [],
                  sortCriteria := [{ key := "b", direction := .asc }],
                  columnWidths := [("b", 150)] },
        activeCell := none, maxRows := 0, undo := UndoStack.initial UndoAction,
        filteredIndices := [], sortedIndices := [] }
     (deleteColumn s "b").core.sortCriteria = [] ∧
       mapGet (deleteColumn s "b").core.columnWidths "b" = none ∧
       ∃ act, (deleteColumn s "b").undo = s.undo.push act ∧
         (act.runUndo (deleteColumn s "b").core).columns = s.core.columns) := by
  intro s
  have h := (c7_deleteColumn s "b").2 1 (by decide)
  obtain ⟨-, hcrit, hwidth, -, act, hpush, hcols, -, -, -⟩ := h
  refine ⟨?_, hwidth, act, hpush, hcols (by decide)⟩
  rw [hcrit]
  decide

/-- A row passes the filter loop iff no predicate definitely rejects it:
thrown predicates do not exclude the row and do not abort the loop. -/
theorem rowPass_fst_iff (filters : List ColumnFilter) (row : Row) :
    (rowPass filters row).1 = true ↔
      ∀ f ∈ filters, f.predicate (getVal row f.key) row ≠ .ok false := by
  induction filters with
  | nil => simp [rowPass]
  | cons f rest ih =>
    simp only [rowPass]
    cases hp : f.predicate (getVal row f.key) row with
    | ok b =>
      cases b
      · simp [hp]
      · simp only [List.mem_cons, ih]
        constructor
        · rintro h g (rfl | hg)
          · rw [hp]; simp
          · exact h g hg
        · intro h g hg
          exact h g (Or.inr hg)
    | error e =>
      simp only [List.mem_cons, ih]
      constructor
      · rintro h g (rfl | hg)
        · rw [hp]; simp
        · exact h g hg
      · intro h g hg
        exact h g (Or.inr hg)

/-- A predicate that throws is reported: if no earlier filter rejected
the row, the error, row and filter are delivered to the error log. -/
theorem rowPass_error_mem (pre post : List ColumnFilter) (f : ColumnFilter)
    (row : Row) (e : String)
    (herr : f.predicate (getVal row f.key) row = .error e)
    (hpre : ∀ g ∈ pre, g.predicate (getVal row g.key) row ≠ .ok false) :
    (e, row, f) ∈ (rowPass (pre ++ f :: post) row).2 := by
  induction pre with
  | nil =>
    simp only [List.nil_append, rowPass, herr]
    simp
  | cons g rest ih =>
    have hg := hpre g (by simp)
    simp only [List.cons_append, rowPass]
    cases hp : g.predicate (getVal row g.key) row with
    | ok b =>
      cases b
      · exact absurd hp hg
      · exact ih (fun g2 hg2 => hpre g2 (by simp [hg2]))
    | error e2 =>
      simp only [List.mem_cons]
      exact Or.inr (ih (fun g2 hg2 => hpre g2 (by simp [hg2])))

/-- C1: a throwing filter predicate never excludes a row and never aborts
`computeFilteredIndices`: a row is kept iff no predicate returns `false`
on it (fail-open for exceptions), and each thrown error is reported as
`(error, row, filter)` to the log / `onError` callback (provided no
earlier filter already rejected the row and broke the loop). -/
theorem c1_computeFilteredIndices_fail_open (data : List Row)
    (filters : List ColumnFilter) (i : Nat) (hi : i < data.length) :
    (i ∈ (computeFilteredIndices data filters).1 ↔
      ∀ f ∈ filters, f.predicate (getVal (rowAt data i) f.key) (rowAt data i)
        ≠ .ok false) ∧
    (∀ pre f post e, filters = pre ++ f :: post →
      f.predicate (getVal (rowAt data i) f.key) (rowAt data i) = .error e →
      (∀ g ∈ pre, g.predicate (getVal (rowAt data i) g.key) (rowAt data i)
        ≠ .ok false) →
      (e, rowAt data i, f) ∈ (computeFilteredIndices data filters).2) := by
  by_cases hemp : filters.isEmpty
  · have hnil : filters = [] := List.isEmpty_iff.mp hemp
    subst hnil
    constructor
    · simp [computeFilteredIndices, List.mem_range, hi]
    · intro pre f post e habs
      exact absurd habs (by simp)
  · constructor
    · simp only [computeFilteredIndices, if_neg hemp, List.mem_filter, List.mem_range]
      rw [← rowPass_fst_iff]
      simp [hi]
    · intro pre f post e hsplit herr hpre
      simp only [computeFilteredIndices, if_neg hemp, List.mem_flatMap]
      refine ⟨i, List.mem_range.mpr hi, ?_⟩
      rw [hsplit]
      exact rowPass_error_mem pre post f (rowAt data i) e herr hpre

/-- C1 witness: one row and one always-throwing filter — the row is kept
and the error is delivered with the row and the filter. -/
theorem c1_computeFilteredIndices_fail_open_witness :
    0 ∈ (computeFilteredIndices [[("k", Value.vNum 1)]] [throwingFilter]).1 ∧
    ("boom", ([("k", Value.vNum 1)] : Row), throwingFilter) ∈
      (computeFilteredIndices [[("k", Value.vNum 1)]] [throwingFilter]).2 := by
  constructor
  · refine (c1_computeFilteredIndices_fail_open [[("k", Value.vNum 1)]]
      [throwingFilter] 0 (by decide)).1.mpr ?_
    intro f hf
    have : f = throwingFilter := by simpa using hf
    subst this
    simp [throwingFilter]
  · exact (c1_computeFilteredIndices_fail_open [[("k", Value.vNum 1)]]
      [throwingFilter] 0 (by decide)).2 [] throwingFilter [] "boom" rfl rfl
      (by simp)

/-! Sign theory of the comparator: `strCmp`, `bCmp`, `compareValues`. -/

theorem strCmp_neg_iff (a b : String) : strCmp a b < 0 ↔ a < b := by
  unfold strCmp
  split_ifs with h1 h2
  · simpa using h1
  · simp [h2]
  · simp [h1]

theorem strCmp_eq_zero_iff (a b : String) : strCmp a b = 0 ↔ a = b := by
  unfold strCmp
  split_ifs with h1 h2
  · simp [h1.ne]
  · simp [h2]
  · simp [h2]

theorem strCmp_antisymm (a b : String) : strCmp b a = -(strCmp a b) := by
  rcases lt_trichotomy a b with h | h | h
  · simp [strCmp, h, asymm h, h.ne, h.ne']
  · simp [strCmp, h]
  · simp [strCmp, h, asymm h, h.ne, h.ne']

theorem bCmp_antisymm (a b : BKey) : bCmp b a = -(bCmp a b) := by
  cases a <;> cases b <;> simp only [bCmp] <;>
    first
      | decide
      | (split_ifs <;> omega)
      | (exact strCmp_antisymm _ _)

/-- The three-way integer comparison pattern of `bCmp`: sign facts. -/
theorem intCmp_eq_zero (x y : Int) :
    ((if x < y then (-1 : Int) else if x = y then 0 else 1) = 0) ↔ x = y := by
  by_cases h1 : x < y
  · rw [if_pos h1]
    omega
  · rw [if_neg h1]
    by_cases h2 : x = y
    · rw [if_pos h2]
      omega
    · rw [if_neg h2]
      omega

theorem intCmp_sign (x y : Int) :
    (x - y = 0 ↔ (if x < y then (-1 : Int) else if x = y then 0 else 1) = 0) ∧
    (x - y < 0 ↔ (if x < y then (-1 : Int) else if x = y then 0 else 1) < 0) := by
  by_cases h1 : x < y
  · rw [if_pos h1]
    exact ⟨by omega, by omega⟩
  · rw [if_neg h1]
    by_cases h2 : x = y
    · rw [if_pos h2]
      exact ⟨by omega, by omega⟩
    · rw [if_neg h2]
      exact ⟨by omega, by omega⟩

theorem bCmp_eq_zero_iff (a b : BKey) : bCmp a b = 0 ↔ a = b := by
  cases a <;> cases b <;> simp only [bCmp, BKey.bInt.injEq, BKey.bStr.injEq]
  case bInt.bInt m n => exact intCmp_eq_zero m n
  case bStr.bStr p q => exact strCmp_eq_zero_iff p q
  all_goals simp

theorem bCmp_trans_neg (a b c : BKey) : bCmp a b < 0 → bCmp b c < 0 → bCmp a c < 0 := by
  cases a <;> cases b <;> cases c <;> simp only [bCmp] <;> intro h1 h2 <;>
    first
      | omega
      | (split_ifs at h1 h2 ⊢ <;> omega)
      | (rw [strCmp_neg_iff] at h1 h2 ⊢; exact lt_trans h1 h2)

theorem compareValues_swap (t : String) (a b : Value) :
    compareValues b a t = -(compareValues a b t) := by
  unfold compareValues
  by_cases h1 : t = "number"
  · rw [if_pos h1, if_pos h1]
    cases toNumber a <;> cases toNumber b <;> simp <;> omega
  · rw [if_neg h1, if_neg h1]
    by_cases h2 : t = "boolean"
    · rw [if_pos h2, if_pos h2]
      cases truthy a <;> cases truthy b <;> decide
    · rw [if_neg h2, if_neg h2]
      by_cases h3 : t = "date" ∨ t = "datetime"
      · rw [if_pos h3, if_pos h3]
        omega
      · rw [if_neg h3, if_neg h3]
        exact strCmp_antisymm _ _

theorem compareValues_sign (t : String) (a b : Value) :
    (compareValues a b t = 0 ↔ bCmp (baseKey t a) (baseKey t b) = 0) ∧
    (compareValues a b t < 0 ↔ bCmp (baseKey t a) (baseKey t b) < 0) := by
  unfold compareValues baseKey
  by_cases h1 : t = "number"
  · rw [if_pos h1, if_pos h1, if_pos h1]
    cases toNumber a <;> cases toNumber b
    · exact ⟨Iff.rfl, Iff.rfl⟩
    · exact ⟨Iff.rfl, Iff.rfl⟩
    · exact ⟨Iff.rfl, Iff.rfl⟩
    · rename_i m n
      exact intCmp_sign m n
  · rw [if_neg h1, if_neg h1, if_neg h1]
    by_cases h2 : t = "boolean"
    · rw [if_pos h2, if_pos h2, if_pos h2]
      cases truthy a <;> cases truthy b <;> decide
    · rw [if_neg h2, if_neg h2, if_neg h2]
      by_cases h3 : t = "date" ∨ t = "datetime"
      · rw [if_pos h3, if_pos h3, if_pos h3]
        simp only [bCmp]
        exact intCmp_sign _ _
      · rw [if_neg h3, if_neg h3, if_neg h3]
        exact ⟨Iff.rfl, Iff.rfl⟩

/-- Sign transfer: two integers agreeing on zero and negative sign agree
on the positive sign. -/
theorem sign_pos_corr {p q : Int} (h0 : p = 0 ↔ q = 0) (hneg : p < 0 ↔ q < 0) :
    0 < p ↔ 0 < q := by
  constructor
  · intro hp
    rcases lt_trichotomy q 0 with h | h | h
    · have := hneg.mpr h; omega
    · have := h0.mpr h; omega
    · exact h
  · intro hq
    rcases lt_trichotomy p 0 with h | h | h
    · have := hneg.mp h; omega
    · have := h0.mp h; omega
    · exact h

theorem rank_none_iff (types : String → String) (c : SortCriteria) (x : Row) :
    rank types c x = none ↔ getVal x c.key = .vNull := by
  unfold rank
  cases getVal x c.key <;> simp

theorem rank_some (types : String → String) (c : SortCriteria) (x : Row)
    (hv : getVal x c.key ≠ .vNull) :
    rank types c x = some (baseKey (types c.key) (getVal x c.key)) := by
  unfold rank
  cases h : getVal x c.key <;> simp_all

theorem rankCmp_antisymm (d : SortDirection) (a b : Option BKey) :
    rankCmp d b a = -(rankCmp d a b) := by
  cases a <;> cases b <;> simp only [rankCmp] <;> try decide
  rename_i ka kb
  cases d
  · rw [if_pos rfl, if_pos rfl]
    exact bCmp_antisymm ka kb
  · rw [if_neg (by decide), if_neg (by decide)]
    rw [bCmp_antisymm ka kb]

theorem rankCmp_eq_zero_iff (d : SortDirection) (a b : Option BKey) :
    rankCmp d a b = 0 ↔ a = b := by
  cases a <;> cases b <;> simp only [rankCmp] <;> try simp
  rename_i ka kb
  cases d
  · rw [if_pos rfl]
    simp [bCmp_eq_zero_iff]
  · rw [if_neg (by decide)]
    simp [neg_eq_zero, bCmp_eq_zero_iff]

theorem rankCmp_trans_neg (d : SortDirection) (a b c : Option BKey) :
    rankCmp d a b < 0 → rankCmp d b c < 0 → rankCmp d a c < 0 := by
  cases a <;> cases b <;> cases c <;> simp only [rankCmp] <;> intro h1 h2 <;>
    try omega
  rename_i ka kb kc
  cases d
  · rw [if_pos rfl] at h1 h2 ⊢
    exact bCmp_trans_neg ka kb kc h1 h2
  · rw [if_neg (by decide)] at h1 h2 ⊢
    have h1x : bCmp kb ka < 0 := by rw [bCmp_antisymm ka kb]; omega
    have h2x : bCmp kc kb < 0 := by rw [bCmp_antisymm kb kc]; omega
    have h3 := bCmp_trans_neg kc kb ka h2x h1x
    have h4 := bCmp_antisymm ka kc
    omega

theorem lexCmp_antisymm (types : String → String) (cs : List SortCriteria) (x y : Row) :
    lexCmp types cs y x = -(lexCmp types cs x y) := by
  induction cs with
  | nil => simp [lexCmp]
  | cons c rest ih =>
    simp only [lexCmp]
    rw [rankCmp_antisymm]
    by_cases hv : rankCmp c.direction (rank types c x) (rank types c y) = 0
    · rw [if_pos hv, if_pos (by omega), ih]
    · rw [if_neg hv, if_neg (by omega)]

theorem lexCmp_trans (types : String → String) (cs : List SortCriteria) (x y z : Row) :
    (lexCmp types cs x y < 0 → lexCmp types cs y z ≤ 0 → lexCmp types cs x z < 0) ∧
    (lexCmp types cs x y ≤ 0 → lexCmp types cs y z < 0 → lexCmp types cs x z < 0) ∧
    (lexCmp types cs x y = 0 → lexCmp types cs y z = 0 → lexCmp types cs x z = 0) ∧
    (lexCmp types cs x y ≤ 0 → lexCmp types cs y z ≤ 0 → lexCmp types cs x z ≤ 0) := by
  induction cs with
  | nil => simp [lexCmp]
  | cons c rest ih =>
    simp only [lexCmp]
    by_cases hu : rankCmp c.direction (rank types c x) (rank types c y) = 0
    · have hxy := (rankCmp_eq_zero_iff _ _ _).mp hu
      by_cases hv : rankCmp c.direction (rank types c y) (rank types c z) = 0
      · have hyz := (rankCmp_eq_zero_iff _ _ _).mp hv
        have hw : rankCmp c.direction (rank types c x) (rank types c z) = 0 := by
          rw [hxy, hyz]
          exact (rankCmp_eq_zero_iff _ _ _).mpr rfl
        rw [if_pos hu, if_pos hv, if_pos hw]
        exact ih
      · have hw : rankCmp c.direction (rank types c x) (rank types c z) =
            rankCmp c.direction (rank types c y) (rank types c z) := by rw [hxy]
        rw [if_pos hu, if_neg hv, if_neg (hw ▸ hv)]
        rw [hw]
        refine ⟨?_, ?_, ?_, ?_⟩ <;> intro h1 h2 <;> omega
    · by_cases hv : rankCmp c.direction (rank types c y) (rank types c z) = 0
      · have hyz := (rankCmp_eq_zero_iff _ _ _).mp hv
        have hw : rankCmp c.direction (rank types c x) (rank types c z) =
            rankCmp c.direction (rank types c x) (rank types c y) := by rw [hyz]
        rw [if_neg hu, if_pos hv, if_neg (hw ▸ hu)]
        rw [hw]
        refine ⟨?_, ?_, ?_, ?_⟩ <;> intro h1 h2 <;> omega
      · have htr := rankCmp_trans_neg c.direction (rank types c x) (rank types c y)
            (rank types c z)
        rw [if_neg hu, if_neg hv]
        refine ⟨?_, ?_, ?_, ?_⟩ <;> intro h1 h2
        · have hw := htr (by omega) (by omega)
          rw [if_neg (by omega)]
          exact hw
        · have hw := htr (by omega) (by omega)
          rw [if_neg (by omega)]
          exact hw
        · omega
        · have hw := htr (by omega) (by omega)
          rw [if_neg (by omega)]
          omega

/-- The comparator loop (`sortCmp`) agrees in sign with the rank
skeleton (`lexCmp`): a fall-through is a zero, an early return is a
non-zero value of the same sign. -/
theorem sortCmp_lexCmp (types : String → String) (cs : List SortCriteria) (x y : Row) :
    (sortCmp types cs x y = none ↔ lexCmp types cs x y = 0) ∧
    (∀ v, sortCmp types cs x y = some v →
      v ≠ 0 ∧ (v < 0 ↔ lexCmp types cs x y < 0) ∧ (0 < v ↔ 0 < lexCmp types cs x y)) := by
  induction cs with
  | nil => simp [sortCmp, lexCmp]
  | cons c rest ih =>
    by_cases hxn : getVal x c.key = .vNull
    · by_cases hyn : getVal y c.key = .vNull
      · have hrx : rank types c x = none := (rank_none_iff types c x).mpr hxn
        have hry : rank types c y = none := (rank_none_iff types c y).mpr hyn
        have hstep : sortCmp types (c :: rest) x y = sortCmp types rest x y := by
          simp only [sortCmp]
          rw [if_pos ⟨hxn, hyn⟩]
        have hlex : lexCmp types (c :: rest) x y = lexCmp types rest x y := by
          simp [lexCmp, hrx, hry, rankCmp]
        rw [hstep, hlex]
        exact ih
      · have hrx : rank types c x = none := (rank_none_iff types c x).mpr hxn
        have hry := rank_some types c y hyn
        have hstep : sortCmp types (c :: rest) x y = some 1 := by
          simp only [sortCmp]
          rw [if_neg (by simp [hyn]), if_pos hxn]
        have hlex : lexCmp types (c :: rest) x y = 1 := by
          simp [lexCmp, hrx, hry, rankCmp]
        rw [hstep, hlex]
        constructor
        · simp
        · intro v hv
          obtain rfl : (1 : Int) = v := by simpa using hv
          refine ⟨by omega, by omega, by omega⟩
    · by_cases hyn : getVal y c.key = .vNull
      · have hrx := rank_some types c x hxn
        have hry : rank types c y = none := (rank_none_iff types c y).mpr hyn
        have hstep : sortCmp types (c :: rest) x y = some (-1) := by
          simp only [sortCmp]
          rw [if_neg (by simp [hxn]), if_neg hxn, if_pos hyn]
        have hlex : lexCmp types (c :: rest) x y = -1 := by
          simp [lexCmp, hrx, hry, rankCmp]
        rw [hstep, hlex]
        constructor
        · simp
        · intro v hv
          obtain rfl : (-1 : Int) = v := by simpa using hv
          refine ⟨by omega, by omega, by omega⟩
      · have hrx := rank_some types c x hxn
        have hry := rank_some types c y hyn
        have hsign := compareValues_sign (types c.key) (getVal x c.key) (getVal y c.key)
        by_cases hz : compareValues (getVal x c.key) (getVal y c.key) (types c.key) = 0
        · have hb : bCmp (baseKey (types c.key) (getVal x c.key))
              (baseKey (types c.key) (getVal y c.key)) = 0 := hsign.1.mp hz
          have hrc : rankCmp c.direction (rank types c x) (rank types c y) = 0 := by
            rw [hrx, hry]
            cases c.direction <;> simp only [rankCmp, reduceIte]
            · exact hb
            · omega
          have hstep : sortCmp types (c :: rest) x y = sortCmp types rest x y := by
            simp only [sortCmp]
            rw [if_neg (by simp [hxn]), if_neg hxn, if_neg hyn]
            simp [hz]
          have hlex : lexCmp types (c :: rest) x y = lexCmp types rest x y := by
            simp only [lexCmp]
            rw [if_pos hrc]
          rw [hstep, hlex]
          exact ih
        · have hb : bCmp (baseKey (types c.key) (getVal x c.key))
              (baseKey (types c.key) (getVal y c.key)) ≠ 0 := fun h => hz (hsign.1.mpr h)
          have hrc : rankCmp c.direction (rank types c x) (rank types c y) ≠ 0 := by
            rw [hrx, hry]
            cases c.direction <;> simp only [rankCmp, reduceIte]
            · exact hb
            · omega
          have hstep : sortCmp types (c :: rest) x y =
              some (if c.direction = .asc
                then compareValues (getVal x c.key) (getVal y c.key) (types c.key)
                else -compareValues (getVal x c.key) (getVal y c.key) (types c.key)) := by
            simp only [sortCmp]
            rw [if_neg (by simp [hxn]), if_neg hxn, if_neg hyn]
            simp [hz]
          have hlex : lexCmp types (c :: rest) x y =
              rankCmp c.direction (rank types c x) (rank types c y) := by
            simp only [lexCmp]
            rw [if_neg hrc]
          rw [hstep, hlex]
          constructor
          · simp [hrc]
          · intro v hv
            obtain rfl : _ = v := by simpa using hv
            rw [hrx, hry]
            have hneg := hsign.2
            have hposc := sign_pos_corr hsign.1 hsign.2
            cases c.direction <;>
              simp only [rankCmp, reduceIte, reduceCtorEq, ite_false]
            · exact ⟨hz, hneg, hposc⟩
            · generalize hcv : compareValues (getVal x c.key) (getVal y c.key)
                (types c.key) = cmpv at hz hneg hposc ⊢
              generalize hbv : bCmp (baseKey (types c.key) (getVal x c.key))
                (baseKey (types c.key) (getVal y c.key)) = bv at hneg hposc ⊢
              rcases lt_trichotomy cmpv 0 with h | h | h
              · have h2 := hneg.mp h
                refine ⟨by omega, ?_, ?_⟩ <;> constructor <;> intro h5 <;> omega
              · exact absurd h hz
              · have h2 := hposc.mp h
                refine ⟨by omega, ?_, ?_⟩ <;> constructor <;> intro h5 <;> omega

/-- One step of the comparator loop: the head criterion short-circuits on a
non-zero single-criterion result and falls through to the remaining
criteria on a tie. -/
theorem sortCmp_step (types : String → String) (c : SortCriteria)
    (rest : List SortCriteria) (x y : Row) :
    (∀ v, sortCmp types [c] x y = some v → sortCmp types (c :: rest) x y = some v) ∧
    (sortCmp types [c] x y = none →
      sortCmp types (c :: rest) x y = sortCmp types rest x y) := by
  simp only [sortCmp]
  by_cases h1 : getVal x c.key = .vNull ∧ getVal y c.key = .vNull
  · rw [if_pos h1, if_pos h1]
    exact ⟨fun v hv => (by cases hv), fun h => rfl⟩
  · rw [if_neg h1, if_neg h1]
    by_cases h2 : getVal x c.key = .vNull
    · rw [if_pos h2, if_pos h2]
      refine ⟨fun v hv => hv, fun h => ?_⟩
      cases h
    · rw [if_neg h2, if_neg h2]
      by_cases h3 : getVal y c.key = .vNull
      · rw [if_pos h3, if_pos h3]
        refine ⟨fun v hv => hv, fun h => ?_⟩
        cases h
      · rw [if_neg h3, if_neg h3]
        by_cases h4 : compareValues (getVal x c.key) (getVal y c.key) (types c.key) ≠ 0
        · rw [if_pos h4, if_pos h4]
          refine ⟨fun v hv => hv, fun h => ?_⟩
          cases h
        · rw [if_neg h4, if_neg h4]
          exact ⟨fun v hv => (by cases hv), fun h => rfl⟩

/-- A full fall-through is symmetric in its two rows. -/
theorem sortCmp_none_swap (types : String → String) (cs : List SortCriteria)
    (x y : Row) (h : sortCmp types cs x y = none) : sortCmp types cs y x = none := by
  have h1 := (sortCmp_lexCmp types cs x y).1.mp h
  have h2 : lexCmp types cs y x = 0 := by rw [lexCmp_antisymm]; omega
  exact (sortCmp_lexCmp types cs y x).1.mpr h2

/-- The comparator is non-positive exactly when the rank skeleton is
negative, or ties and the index tiebreak `a - b` is non-positive. -/
theorem idxCmp_nonpos_iff (data : List Row) (types : String → String)
    (criteria : List SortCriteria) (a b : Nat) :
    idxCmp data types criteria a b ≤ 0 ↔
      (lexCmp types criteria (rowAt data a) (rowAt data b) < 0 ∨
       (lexCmp types criteria (rowAt data a) (rowAt data b) = 0 ∧ a ≤ b)) := by
  cases h : sortCmp types criteria (rowAt data a) (rowAt data b) with
  | none =>
    have h0 := (sortCmp_lexCmp types criteria _ _).1.mp h
    have hval : idxCmp data types criteria a b = (a : Int) - (b : Int) := by
      unfold idxCmp
      rw [h]
    rw [hval, h0]
    omega
  | some v =>
    obtain ⟨hv0, hneg, hpos⟩ := (sortCmp_lexCmp types criteria _ _).2 v h
    have hval : idxCmp data types criteria a b = v := by
      unfold idxCmp
      rw [h]
    rw [hval]
    rcases lt_trichotomy v 0 with hv | hv | hv
    · have := hneg.mp hv
      omega
    · exact absurd hv hv0
    · have h1 := hpos.mp hv
      have h2 : ¬ lexCmp types criteria (rowAt data a) (rowAt data b) < 0 :=
        fun hc => absurd (hneg.mpr hc) (by omega)
      omega

/-- The sort relation is total. -/
theorem idxLe_total (data : List Row) (types : String → String)
    (criteria : List SortCriteria) :
    ∀ a b, idxLe data types criteria a b ∨ idxLe data types criteria b a := by
  intro a b
  unfold idxLe
  rw [idxCmp_nonpos_iff, idxCmp_nonpos_iff]
  have has := lexCmp_antisymm types criteria (rowAt data a) (rowAt data b)
  rcases lt_trichotomy (lexCmp types criteria (rowAt data a) (rowAt data b)) 0 with h | h | h
  · exact Or.inl (Or.inl h)
  · by_cases hab : a ≤ b
    · exact Or.inl (Or.inr ⟨h, hab⟩)
    · exact Or.inr (Or.inr ⟨by omega, by omega⟩)
  · exact Or.inr (Or.inl (by omega))

/-- The sort relation is transitive. -/
theorem idxLe_trans (data : List Row) (types : String → String)
    (criteria : List SortCriteria) :
    ∀ a b c, idxLe data types criteria a b → idxLe data types criteria b c →
      idxLe data types criteria a c := by
  intro a b c h1 h2
  unfold idxLe at h1 h2 ⊢
  rw [idxCmp_nonpos_iff] at h1 h2 ⊢
  have htr := lexCmp_trans types criteria (rowAt data a) (rowAt data b) (rowAt data c)
  rcases h1 with h1 | ⟨h1, h1b⟩ <;> rcases h2 with h2 | ⟨h2, h2b⟩
  · exact Or.inl (htr.1 h1 (by omega))
  · exact Or.inl (htr.1 h1 (by omega))
  · exact Or.inl (htr.2.1 (by omega) h2)
  · exact Or.inr ⟨htr.2.2.1 h1 h2, by omega⟩

/-- The sort relation is antisymmetric (ties only at equal indices). -/
theorem idxLe_antisymm (data : List Row) (types : String → String)
    (criteria : List SortCriteria) :
    ∀ a b, idxLe data types criteria a b → idxLe data types criteria b a → a = b := by
  intro a b h1 h2
  unfold idxLe at h1 h2
  rw [idxCmp_nonpos_iff] at h1 h2
  have has := lexCmp_antisymm types criteria (rowAt data a) (rowAt data b)
  rcases h1 with h1 | ⟨h1, h1b⟩ <;> rcases h2 with h2 | ⟨h2, h2b⟩ <;> omega

/-- `computeSortedIndices` always returns a permutation of `[0, n)`. -/
theorem computeSortedIndices_perm (data : List Row) (criteria : List SortCriteria)
    (columns : List ColumnDefinition) :
    (computeSortedIndices data criteria columns).Perm (List.range data.length) := by
  have hdef : computeSortedIndices data criteria columns =
      if criteria.isEmpty then List.range data.length
      else (List.range data.length).insertionSort
        (idxLe data (typeForKey columns) criteria) := rfl
  rw [hdef]
  by_cases h : criteria.isEmpty
  · rw [if_pos h]
  · rw [if_neg h]
    exact List.perm_insertionSort _ _

/-- The output of `computeSortedIndices` is sorted under the comparator
relation. -/
theorem computeSortedIndices_sorted (data : List Row) (criteria : List SortCriteria)
    (columns : List ColumnDefinition) :
    (computeSortedIndices data criteria columns).Sorted
      (idxLe data (typeForKey columns) criteria) := by
  have hdef : computeSortedIndices data criteria columns =
      if criteria.isEmpty then List.range data.length
      else (List.range data.length).insertionSort
        (idxLe data (typeForKey columns) criteria) := rfl
  rw [hdef]
  by_cases h : criteria.isEmpty
  · rw [if_pos h]
    have hc : criteria = [] := List.isEmpty_iff.mp h
    subst hc
    refine List.Pairwise.imp ?_ (List.pairwise_lt_range _)
    intro a b hab
    show (a : Int) - (b : Int) ≤ 0
    omega
  · rw [if_neg h]
    haveI : IsTotal Nat (idxLe data (typeForKey columns) criteria) :=
      ⟨idxLe_total data (typeForKey columns) criteria⟩
    haveI : IsTrans Nat (idxLe data (typeForKey columns) criteria) :=
      ⟨fun a b c => idxLe_trans data (typeForKey columns) criteria a b c⟩
    exact List.sorted_insertionSort _ _

/-- Under a strictly ascending key with no nulls, the single descending
criterion orders larger indices first. -/
theorem idxLe_desc_of_asc (data : List Row) (columns : List ColumnDefinition)
    (k : String)
    (hnn : ∀ i, i < data.length → getVal (rowAt data i) k ≠ Value.vNull)
    (hasc : ∀ i j, i < j → j < data.length →
      compareValues (getVal (rowAt data i) k) (getVal (rowAt data j) k)
        (typeForKey columns k) < 0)
    (u v : Nat) (hvu : v < u) (hu : u < data.length) :
    idxLe data (typeForKey columns) [⟨k, SortDirection.desc⟩] u v := by
  have hnu := hnn u hu
  have hnv := hnn v (by omega)
  have hcmp := hasc v u hvu hu
  have hswap := compareValues_swap (typeForKey columns k)
    (getVal (rowAt data v) k) (getVal (rowAt data u) k)
  have hstep : sortCmp (typeForKey columns) [⟨k, SortDirection.desc⟩]
      (rowAt data u) (rowAt data v) =
      some (-(compareValues (getVal (rowAt data u) k) (getVal (rowAt data v) k)
        (typeForKey columns k))) := by
    simp only [sortCmp]
    rw [if_neg (by simp [hnu]), if_neg hnu, if_neg hnv, if_pos (by omega)]
    rw [if_neg (by decide)]
  have hval : idxCmp data (typeForKey columns) [⟨k, SortDirection.desc⟩] u v =
      -(compareValues (getVal (rowAt data u) k) (getVal (rowAt data v) k)
        (typeForKey columns k)) := by
    unfold idxCmp
    rw [hstep]
  unfold idxLe
  rw [hval]
  omega

/-- C4: `computeSortedIndices` returns a permutation of `[0, rows.length)`;
an empty criteria list returns the identity; the comparator short-circuits
on the first criterion with a non-zero result and falls through to the
remaining criteria on a tie; rows tied under every criterion keep their
original relative order in the output (stability); and re-sorting data
that is strictly ascending on a key by that same single key descending
yields the exact reverse order. -/
theorem c4_computeSortedIndices (data : List Row) (criteria : List SortCriteria)
    (columns : List ColumnDefinition) :
    (computeSortedIndices data criteria columns).Perm (List.range data.length) ∧
    computeSortedIndices data [] columns = List.range data.length ∧
    (∀ c rest x y,
      (∀ v, sortCmp (typeForKey columns) [c] x y = some v →
        sortCmp (typeForKey columns) (c :: rest) x y = some v) ∧
      (sortCmp (typeForKey columns) [c] x y = none →
        sortCmp (typeForKey columns) (c :: rest) x y =
          sortCmp (typeForKey columns) rest x y)) ∧
    (∀ a b i j (hi : i < (computeSortedIndices data criteria columns).length)
        (hj : j < (computeSortedIndices data criteria columns).length),
      a < b →
      sortCmp (typeForKey columns) criteria (rowAt data a) (rowAt data b) = none →
      (computeSortedIndices data criteria columns).get ⟨i, hi⟩ = a →
      (computeSortedIndices data criteria columns).get ⟨j, hj⟩ = b →
      i < j) ∧
    (∀ k, criteria = [⟨k, SortDirection.desc⟩] →
      (∀ i, i < data.length → getVal (rowAt data i) k ≠ Value.vNull) →
      (∀ i j, i < j → j < data.length →
        compareValues (getVal (rowAt data i) k) (getVal (rowAt data j) k)
          (typeForKey columns k) < 0) →
      computeSortedIndices data criteria columns =
        (List.range data.length).reverse) := by
  refine ⟨computeSortedIndices_perm data criteria columns, rfl,
    fun c rest x y => sortCmp_step (typeForKey columns) c rest x y, ?_, ?_⟩
  · intro a b i j hi hj hab hnone hia hjb
    by_contra hij
    have hs := computeSortedIndices_sorted data criteria columns
    rcases Nat.lt_or_ge j i with hji | hji
    · have hrel := List.Sorted.rel_get_of_lt hs
        (show (⟨j, hj⟩ : Fin _) < ⟨i, hi⟩ from hji)
      rw [hia, hjb] at hrel
      have hswap := sortCmp_none_swap (typeForKey columns) criteria _ _ hnone
      have hval : idxCmp data (typeForKey columns) criteria b a =
          (b : Int) - (a : Int) := by
        unfold idxCmp
        rw [hswap]
      unfold idxLe at hrel
      rw [hval] at hrel
      omega
    · have hij2 : i = j := by omega
      subst hij2
      rw [hia] at hjb
      omega
  · intro k hc hnn hasc
    subst hc
    haveI : IsAntisymm Nat (idxLe data (typeForKey columns)
        [⟨k, SortDirection.desc⟩]) :=
      ⟨idxLe_antisymm data (typeForKey columns) _⟩
    have hperm : (computeSortedIndices data [⟨k, SortDirection.desc⟩] columns).Perm
        ((List.range data.length).reverse) :=
      (computeSortedIndices_perm data _ columns).trans
        (List.reverse_perm (List.range data.length)).symm
    have hs1 := computeSortedIndices_sorted data [⟨k, SortDirection.desc⟩] columns
    have hs2 : ((List.range data.length).reverse).Sorted
        (idxLe data (typeForKey columns) [⟨k, SortDirection.desc⟩]) := by
    -- a reversed range is sorted for the descending comparator
      show ((List.range data.length).reverse).Pairwise _
      rw [List.pairwise_reverse]
      refine List.Pairwise.imp_of_mem ?_ (List.pairwise_lt_range _)
      intro a b ha hb hab
      exact idxLe_desc_of_asc data columns k hnn hasc b a hab (List.mem_range.mp hb)
    exact List.eq_of_perm_of_sorted hperm hs1 hs2

/-- C4 witness: a two-row table ascending on a numeric key, re-sorted by
that key descending, comes out exactly reversed. -/
theorem c4_computeSortedIndices_witness :
    computeSortedIndices [[("k", Value.vNum 1)], [("k", Value.vNum 2)]]
      [⟨"k", SortDirection.desc⟩]
      [⟨"k", "", some "number", none, none, none, none, none⟩] = [1, 0] := by
  have h := (c4_computeSortedIndices [[("k", Value.vNum 1)], [("k", Value.vNum 2)]]
      [⟨"k", SortDirection.desc⟩]
      [⟨"k", "", some "number", none, none, none, none, none⟩]).2.2.2.2 "k" rfl
    (by
      intro i hi
      simp only [List.length_cons, List.length_nil] at hi
      have hi2 : i = 0 ∨ i = 1 := by omega
      rcases hi2 with rfl | rfl <;> decide)
    (by
      intro i j hij hj
      simp only [List.length_cons, List.length_nil] at hj
      have hj2 : j = 1 ∧ i = 0 := by omega
      obtain ⟨rfl, rfl⟩ := hj2
      decide)
  rw [h]
  rfl

/-- The comparator returns `1` (left row after right row) as soon as the
head criterion sees a null on the left and a non-null on the right,
before the direction is ever consulted. -/
theorem sortCmp_null_left (types : String → String) (c : SortCriteria)
    (rest : List SortCriteria) (x y : Row)
    (hx : getVal x c.key = Value.vNull) (hy : getVal y c.key ≠ Value.vNull) :
    sortCmp types (c :: rest) x y = some 1 := by
  simp only [sortCmp]
  rw [if_neg (by simp [hy]), if_pos hx]

/-- C6: a row that is null at a criterion key compares after any row that
is non-null there, on every criterion and in both directions (the
comparator returns 1 before looking at the direction); hence in a
single-criterion sort no null-at-key row precedes a non-null-at-key row;
in particular sorting `[{k: null}, {k: 1}]` by `k` descending gives
`[1, 0]`. -/
theorem c6_nulls_sort_last (data : List Row) (columns : List ColumnDefinition)
    (k : String) (d : SortDirection) :
    (∀ (c : SortCriteria) (rest : List SortCriteria) (x y : Row),
      getVal x c.key = Value.vNull → getVal y c.key ≠ Value.vNull →
      sortCmp (typeForKey columns) (c :: rest) x y = some 1) ∧
    (∀ i j (hi : i < (computeSortedIndices data [⟨k, d⟩] columns).length)
        (hj : j < (computeSortedIndices data [⟨k, d⟩] columns).length),
      i < j →
      getVal (rowAt data
        ((computeSortedIndices data [⟨k, d⟩] columns).get ⟨i, hi⟩)) k =
        Value.vNull →
      getVal (rowAt data
        ((computeSortedIndices data [⟨k, d⟩] columns).get ⟨j, hj⟩)) k =
        Value.vNull) ∧
    computeSortedIndices [[("k", Value.vNull)], [("k", Value.vNum 1)]]
      [⟨"k", SortDirection.desc⟩] [] = [1, 0] := by
  refine ⟨fun c rest x y hx hy =>
    sortCmp_null_left (typeForKey columns) c rest x y hx hy, ?_, by decide⟩
  intro i j hi hj hij hnull
  by_contra hnn2
  have hs := computeSortedIndices_sorted data [⟨k, d⟩] columns
  have hrel := List.Sorted.rel_get_of_lt hs
    (show (⟨i, hi⟩ : Fin _) < ⟨j, hj⟩ from hij)
  have hcmp : sortCmp (typeForKey columns) [⟨k, d⟩]
      (rowAt data ((computeSortedIndices data [⟨k, d⟩] columns).get ⟨i, hi⟩))
      (rowAt data ((computeSortedIndices data [⟨k, d⟩] columns).get ⟨j, hj⟩)) =
      some 1 :=
    sortCmp_null_left (typeForKey columns) ⟨k, d⟩ [] _ _ hnull hnn2
  have hval : idxCmp data (typeForKey columns) [⟨k, d⟩]
      ((computeSortedIndices data [⟨k, d⟩] columns).get ⟨i, hi⟩)
      ((computeSortedIndices data [⟨k, d⟩] columns).get ⟨j, hj⟩) = 1 := by
    unfold idxCmp
    rw [hcmp]
  unfold idxLe at hrel
  rw [hval] at hrel
  omega

/-- C6 witness: the null-vs-non-null comparator step on a concrete pair,
and the positional statement on a concrete two-null table. -/
theorem c6_nulls_sort_last_witness :
    sortCmp (typeForKey []) [⟨"k", SortDirection.asc⟩]
      [("k", Value.vNull)] [("k", Value.vNum 1)] = some 1 ∧
    getVal (rowAt [[("k", Value.vNull)], [("k", Value.vNull)]]
      ((computeSortedIndices [[("k", Value.vNull)], [("k", Value.vNull)]]
        [⟨"k", SortDirection.desc⟩] []).get ⟨1, by decide⟩)) "k" =
      Value.vNull :=
  ⟨(c6_nulls_sort_last [] [] "k" SortDirection.asc).1 ⟨"k", SortDirection.asc⟩ []
      [("k", Value.vNull)] [("k", Value.vNum 1)] (by decide) (by decide),
   (c6_nulls_sort_last [[("k", Value.vNull)], [("k", Value.vNull)]] [] "k"
      SortDirection.desc).2.1 0 1 (by decide) (by decide) (by decide) (by decide)⟩

/-- Reading a cons row: the head entry shadows the tail. -/
theorem getVal_cons (k1 : String) (v1 : Value) (rest : List (String × Value))
    (k : String) :
    getVal ((k1, v1) :: rest) k = if k1 = k then v1 else getVal rest k := by
  by_cases h : k1 = k
  · rw [if_pos h]
    simp [getVal, List.find?, h]
  · rw [if_neg h]
    have hbeq : (k1 == k) = false := beq_eq_false_iff_ne.mpr h
    simp [getVal, List.find?, hbeq]

/-- Pointwise characterization of a cell write: reading key `k2` after
writing key `k` sees the new value iff `k2 = k`. -/
theorem getVal_setVal (r : Row) (k : String) (v : Value) (k2 : String) :
    getVal (setVal r k v) k2 = if k2 = k then v else getVal r k2 := by
  induction r with
  | nil =>
    show getVal [(k, v)] k2 = _
    rw [getVal_cons]
    by_cases h : k2 = k
    · rw [if_pos h.symm, if_pos h]
    · rw [if_neg (fun hc => h hc.symm), if_neg h]
  | cons p rest ih =>
    obtain ⟨k1, v1⟩ := p
    by_cases h1 : k1 = k
    · have hset : setVal ((k1, v1) :: rest) k v = (k1, v) :: rest := by
        simp [setVal, h1]
      rw [hset, getVal_cons, getVal_cons]
      by_cases h2 : k1 = k2
      · rw [if_pos h2, if_pos (h2.symm.trans h1)]
      · rw [if_neg h2, if_neg (fun hc => h2 (h1.trans hc.symm)), if_neg h2]
    · have hset : setVal ((k1, v1) :: rest) k v = (k1, v1) :: setVal rest k v := by
        simp [setVal, h1]
      rw [hset, getVal_cons, getVal_cons]
      by_cases h2 : k1 = k2
      · rw [if_pos h2, if_neg (fun hc => h1 (h2.trans hc)), if_pos h2]
      · rw [if_neg h2, ih, if_neg h2]

theorem rowUndo_append_single (chs : List PasteChange) (ch : PasteChange) (r : Row) :
    rowUndo (chs ++ [ch]) r = setVal (rowUndo chs r) ch.key ch.oldValue := by
  unfold rowUndo
  rw [List.foldl_append]
  rfl

/-- Keys not mentioned by a change list are untouched by the restore loop. -/
theorem rowUndo_fresh (chs : List PasteChange) (r : Row) (k : String)
    (h : ∀ ch ∈ chs, ch.key ≠ k) : getVal (rowUndo chs r) k = getVal r k := by
  induction chs generalizing r with
  | nil => rfl
  | cons ch t ih =>
    have hk : ch.key ≠ k := h ch (List.mem_cons_self _ _)
    show getVal (rowUndo t (setVal r ch.key ch.oldValue)) k = getVal r k
    rw [ih _ (fun ch2 hch2 => h ch2 (List.mem_cons_of_mem _ hch2))]
    rw [getVal_setVal]
    rw [if_neg (fun hc => hk hc.symm)]

/-- The restore loop only depends on the row extensionally. -/
theorem rowUndo_congr (chs : List PasteChange) (r r2 : Row)
    (h : ∀ k, getVal r k = getVal r2 k) :
    ∀ k, getVal (rowUndo chs r) k = getVal (rowUndo chs r2) k := by
  induction chs generalizing r r2 with
  | nil => exact h
  | cons ch t ih =>
    intro k
    show getVal (rowUndo t (setVal r ch.key ch.oldValue)) k = _
    refine ih _ _ ?_ k
    intro k2
    rw [getVal_setVal, getVal_setVal]
    by_cases h2 : k2 = ch.key
    · rw [if_pos h2, if_pos h2]
    · rw [if_neg h2, if_neg h2]
      exact h k2

/-- Restoring changes whose keys avoid `key` commutes with a write to
`key`, extensionally. -/
theorem rowUndo_setVal_comm (chs : List PasteChange) (r : Row) (key : String)
    (v : Value) (h : ∀ ch ∈ chs, ch.key ≠ key) :
    ∀ k, getVal (rowUndo chs (setVal r key v)) k =
      if k = key then v else getVal (rowUndo chs r) k := by
  induction chs generalizing r with
  | nil => exact getVal_setVal r key v
  | cons ch t ih =>
    intro k
    have hne : ch.key ≠ key := h ch (List.mem_cons_self _ _)
    show getVal (rowUndo t (setVal (setVal r key v) ch.key ch.oldValue)) k = _
    have hswap : ∀ k2, getVal (setVal (setVal r key v) ch.key ch.oldValue) k2 =
        getVal (setVal (setVal r ch.key ch.oldValue) key v) k2 := by
      intro k2
      rw [getVal_setVal, getVal_setVal, getVal_setVal, getVal_setVal]
      by_cases h2 : k2 = ch.key <;> by_cases h3 : k2 = key
      · exact absurd (h2.symm.trans h3) hne
      · rw [if_pos h2, if_neg h3, if_pos h2]
      · rw [if_neg h2, if_pos h3, if_pos h3]
      · rw [if_neg h2, if_neg h3, if_neg h3, if_neg h2]
    rw [rowUndo_congr t _ _ hswap k]
    rw [ih (setVal r ch.key ch.oldValue)
      (fun ch2 hch2 => h ch2 (List.mem_cons_of_mem _ hch2)) k]
    rfl

/-- Distinct positions in a column list with no duplicate keys hold
distinct keys. -/
theorem visibleKey_ne (cols : List ColumnDefinition)
    (hnd : (cols.map (fun c => c.key)).Nodup) (i j : Nat)
    (hi : i < cols.length) (hj : j < cols.length) (hij : i ≠ j)
    (d1 d2 : ColumnDefinition) :
    (cols.getD i d1).key ≠ (cols.getD j d2).key := by
  intro h
  have hgi : cols.getD i d1 = cols.get ⟨i, hi⟩ := by
    rw [List.getD_eq_getElem?_getD, List.getElem?_eq_getElem hi]
    rfl
  have hgj : cols.getD j d2 = cols.get ⟨j, hj⟩ := by
    rw [List.getD_eq_getElem?_getD, List.getElem?_eq_getElem hj]
    rfl
  rw [hgi, hgj] at h
  have hinj := List.nodup_iff_injective_get.mp hnd
  have hlen : (cols.map (fun c => c.key)).length = cols.length :=
    List.length_map _ _
  have hmap : (cols.map (fun c => c.key)).get ⟨i, by omega⟩ =
      (cols.map (fun c => c.key)).get ⟨j, by omega⟩ := by
    simp only [List.get_eq_getElem, List.getElem_map]
    simp only [List.get_eq_getElem] at h
    exact h
  have hfin := hinj hmap
  have hii : i = j := by
    have := congrArg Fin.val hfin
    simpa using this
  exact hij hii

theorem rowAt_set_self (d : List Row) (i : Nat) (x : Row) (hi : i < d.length) :
    rowAt (d.set i x) i = x := by
  unfold rowAt
  rw [List.getD_eq_getElem?_getD, List.getElem?_set_self hi]
  rfl

theorem rowAt_set_ne (d : List Row) (i j : Nat) (x : Row) (h : i ≠ j) :
    rowAt (d.set i x) j = rowAt d j := by
  unfold rowAt
  rw [List.getD_eq_getElem?_getD, List.getD_eq_getElem?_getD,
    List.getElem?_set_ne h]

theorem rowAt_out (d : List Row) (i : Nat) (h : d.length ≤ i) : rowAt d i = [] := by
  unfold rowAt
  rw [List.getD_eq_getElem?_getD, List.getElem?_eq_none h]
  rfl

theorem dataUndo_length (chs : List PasteChange) (d : List Row) :
    (dataUndo chs d).length = d.length := by
  induction chs generalizing d with
  | nil => rfl
  | cons ch t ih =>
    show (dataUndo t _).length = _
    rw [ih, List.length_set]

theorem dataUndo_append (a b : List PasteChange) (d : List Row) :
    dataUndo (a ++ b) d = dataUndo b (dataUndo a d) := by
  unfold dataUndo
  rw [List.foldl_append]

/-- Restoring changes that avoid row `i` commutes with a `set` at `i`. -/
theorem dataUndo_set_comm (chs : List PasteChange) (d : List Row) (i : Nat) (x : Row)
    (h : ∀ ch ∈ chs, ch.row ≠ i) :
    dataUndo chs (d.set i x) = (dataUndo chs d).set i x := by
  induction chs generalizing d with
  | nil => rfl
  | cons ch t ih =>
    have hne : ch.row ≠ i := h ch (List.mem_cons_self _ _)
    show dataUndo t ((d.set i x).set ch.row
      (setVal (rowAt (d.set i x) ch.row) ch.key ch.oldValue)) = _
    rw [rowAt_set_ne d i ch.row x (fun hc => hne hc.symm)]
    rw [List.set_comm _ _ _ (fun hc => hne hc.symm)]
    rw [ih _ (fun ch2 hch2 => h ch2 (List.mem_cons_of_mem _ hch2))]
    rfl

/-- Rows not mentioned by a change list are untouched by the restore loop. -/
theorem dataUndo_rowAt_fresh (chs : List PasteChange) (d : List Row) (i : Nat)
    (h : ∀ ch ∈ chs, ch.row ≠ i) :
    rowAt (dataUndo chs d) i = rowAt d i := by
  induction chs generalizing d with
  | nil => rfl
  | cons ch t ih =>
    have hne : ch.row ≠ i := h ch (List.mem_cons_self _ _)
    show rowAt (dataUndo t _) i = _
    rw [ih _ (fun ch2 hch2 => h ch2 (List.mem_cons_of_mem _ hch2))]
    exact rowAt_set_ne d ch.row i _ hne

/-- The restore loop over changes all targeting row `i` acts on that row
as the row-level restore loop. -/
theorem dataUndo_rowAt_same (chs : List PasteChange) (d : List Row) (i : Nat)
    (h : ∀ ch ∈ chs, ch.row = i) (hi : i < d.length) :
    rowAt (dataUndo chs d) i = rowUndo chs (rowAt d i) := by
  induction chs generalizing d with
  | nil => rfl
  | cons ch t ih =>
    have hrow : ch.row = i := h ch (List.mem_cons_self _ _)
    show rowAt (dataUndo t (d.set ch.row
      (setVal (rowAt d ch.row) ch.key ch.oldValue))) i = _
    rw [hrow]
    rw [ih _ (fun ch2 hch2 => h ch2 (List.mem_cons_of_mem _ hch2))
      (by rw [List.length_set]; exact hi)]
    rw [rowAt_set_self d i _ hi]
    rfl

theorem toDataIndex_range (n i : Nat) (h : i < n) :
    toDataIndex (List.range n) i = i := by
  unfold toDataIndex
  rw [List.getD_eq_getElem?_getD, List.getElem?_range h]
  rfl

theorem pasteFold_length (sorted : List Nat) (cols : List ColumnDefinition)
    (ac av : Nat) (parsed : List (List String)) :
    ∀ (l : List Nat) (acc : List Row × List PasteChange),
      ((l.foldl (fun acc r =>
        let visualRow := av + r
        let dataRow := toDataIndex sorted visualRow
        let p := pasteRow (rowAt acc.1 dataRow) cols ac (parsed.getD r []) dataRow
        (acc.1.set dataRow p.1, acc.2 ++ p.2)) acc).1).length = acc.1.length := by
  intro l
  induction l with
  | nil => intro acc; rfl
  | cons r t ih =>
    intro acc
    rw [List.foldl_cons, ih]
    simp

/-- The paste write loop never changes the number of rows. -/
theorem pasteWrites_fst_length (data : List Row) (sorted : List Nat)
    (cols : List ColumnDefinition) (av ac : Nat) (parsed : List (List String))
    (count : Nat) :
    (pasteWrites data sorted cols av ac parsed count).1.length = data.length := by
  unfold pasteWrites
  exact pasteFold_length sorted cols ac av parsed _ (data, [])

/-- Every change recorded by the inner paste loop targets the mapped data
row. -/
theorem pasteRowFold_rows (cols : List ColumnDefinition) (ac : Nat)
    (cells : List String) (dataRow : Nat) :
    ∀ (l : List Nat) (acc : Row × List PasteChange),
      (∀ ch ∈ acc.2, ch.row = dataRow) →
      ∀ ch ∈ (l.foldl (fun acc c =>
        let col := cols.getD (ac + c) { key := "" }
        let oldValue := getVal acc.1 col.key
        let newValue := parseValueForColumn (cells.getD c "") col
        (setVal acc.1 col.key newValue,
         acc.2 ++ [{ row := dataRow, col := ac + c, key := col.key,
                     oldValue := oldValue, newValue := newValue }])) acc).2,
        ch.row = dataRow := by
  intro l
  induction l with
  | nil => intro acc h; exact h
  | cons c t ih =>
    intro acc h
    rw [List.foldl_cons]
    refine ih _ ?_
    intro ch hch
    rcases List.mem_append.mp hch with h1 | h1
    · exact h ch h1
    · rw [List.mem_singleton] at h1
      subst h1
      rfl

theorem pasteRow_rows (rowData : Row) (cols : List ColumnDefinition) (ac : Nat)
    (cells : List String) (dataRow : Nat) :
    ∀ ch ∈ (pasteRow rowData cols ac cells dataRow).2, ch.row = dataRow := by
  unfold pasteRow
  exact pasteRowFold_rows cols ac cells dataRow _ (rowData, [])
    (fun ch hch => absurd hch (List.not_mem_nil ch))

/-- Replaying the recorded old values over the written row restores the
input row, pointwise, provided the column keys are distinct. -/
theorem pasteRowFold_restore (cols : List ColumnDefinition) (ac : Nat)
    (cells : List String) (dataRow : Nat) (rowData : Row)
    (hnd : (cols.map (fun c => c.key)).Nodup) :
    ∀ (l : List Nat) (acc : Row × List PasteChange),
      (∀ c ∈ l, ac + c < cols.length) → l.Nodup →
      (∀ ch ∈ acc.2, ∀ c ∈ l, ch.key ≠ (cols.getD (ac + c) { key := "" }).key) →
      (∀ k, getVal (rowUndo acc.2 acc.1) k = getVal rowData k) →
      ∀ k, getVal (rowUndo
        (l.foldl (fun acc c =>
          let col := cols.getD (ac + c) { key := "" }
          let oldValue := getVal acc.1 col.key
          let newValue := parseValueForColumn (cells.getD c "") col
          (setVal acc.1 col.key newValue,
           acc.2 ++ [{ row := dataRow, col := ac + c, key := col.key,
                       oldValue := oldValue, newValue := newValue }])) acc).2
        ((l.foldl (fun acc c =>
          let col := cols.getD (ac + c) { key := "" }
          let oldValue := getVal acc.1 col.key
          let newValue := parseValueForColumn (cells.getD c "") col
          (setVal acc.1 col.key newValue,
           acc.2 ++ [{ row := dataRow, col := ac + c, key := col.key,
                       oldValue := oldValue, newValue := newValue }])) acc).1)) k =
      getVal rowData k := by
  intro l
  induction l with
  | nil => intro acc _ _ _ hrest k; exact hrest k
  | cons c0 t ih =>
    intro acc hb hnd2 hfresh hrest k
    rw [List.foldl_cons]
    have hc0 : ac + c0 < cols.length := hb c0 (List.mem_cons_self _ _)
    have hfr : ∀ ch ∈ acc.2, ch.key ≠ (cols.getD (ac + c0) { key := "" }).key :=
      fun ch hch => hfresh ch hch c0 (List.mem_cons_self _ _)
    refine ih _ (fun c hc => hb c (List.mem_cons_of_mem _ hc)) hnd2.of_cons ?_ ?_ k
    · intro ch hch c hc
      rcases List.mem_append.mp hch with h1 | h1
      · exact hfresh ch h1 c (List.mem_cons_of_mem _ hc)
      · rw [List.mem_singleton] at h1
        subst h1
        have hcc : c0 ≠ c :=
          fun hcc2 => (List.nodup_cons.mp hnd2).1 (by rw [hcc2]; exact hc)
        exact visibleKey_ne cols hnd (ac + c0) (ac + c) hc0
          (hb c (List.mem_cons_of_mem _ hc)) (by omega) _ _
    · intro k2
      simp only []
      rw [rowUndo_append_single]
      rw [getVal_setVal]
      by_cases h2 : k2 = (cols.getD (ac + c0) { key := "" }).key
      · rw [if_pos h2, h2]
        exact ((rowUndo_fresh acc.2 acc.1 _ hfr).symm).trans
          (hrest (cols.getD (ac + c0) { key := "" }).key)
      · rw [if_neg h2]
        rw [rowUndo_setVal_comm acc.2 acc.1 _ _ hfr k2]
        rw [if_neg h2]
        exact hrest k2

/-- `pasteRow` in full: restoring its recorded changes over its output row
gives back the input row, pointwise. -/
theorem pasteRow_restore (rowData : Row) (cols : List ColumnDefinition) (ac : Nat)
    (cells : List String) (dataRow : Nat)
    (hnd : (cols.map (fun c => c.key)).Nodup) :
    ∀ k, getVal (rowUndo (pasteRow rowData cols ac cells dataRow).2
      (pasteRow rowData cols ac cells dataRow).1) k = getVal rowData k := by
  unfold pasteRow
  refine pasteRowFold_restore cols ac cells dataRow rowData hnd _ (rowData, [])
    ?_ ?_ ?_ ?_
  · intro c hc
    have hp := List.mem_takeWhile_imp hc
    exact of_decide_eq_true hp
  · exact (List.takeWhile_sublist _).nodup (List.nodup_range _)
  · intro ch hch
    exact absurd hch (List.not_mem_nil ch)
  · intro k
    rfl

theorem rowAt_take_lt (d : List Row) (m i : Nat) (h : i < m) :
    rowAt (d.take m) i = rowAt d i := by
  unfold rowAt
  rw [List.getD_eq_getElem?_getD, List.getD_eq_getElem?_getD,
    List.getElem?_take_of_lt h]

theorem rowAt_append_left (d1 d2 : List Row) (i : Nat) (h : i < d1.length) :
    rowAt (d1 ++ d2) i = rowAt d1 i := by
  unfold rowAt
  rw [List.getD_eq_getElem?_getD, List.getD_eq_getElem?_getD,
    List.getElem?_append_left h]

/-- With no filters and no sort criteria the recomputed sorted view is the
identity index list. -/
theorem recomputeView_identity (core : GridCore) (hfil : core.filters = [])
    (hsort : core.sortCriteria = []) :
    (recomputeView core).2 = List.range core.data.length := by
  unfold recomputeView
  simp only []
  rw [if_pos (by simp [hfil, hsort])]

/-- The outer paste loop with the identity row mapping: replaying the
recorded old values over the written data restores the input data,
pointwise, when the written column keys are distinct. -/
theorem pasteWritesFold_restore (data : List Row) (cols : List ColumnDefinition)
    (ac av : Nat) (parsed : List (List String))
    (hnd : (cols.map (fun c => c.key)).Nodup) :
    ∀ (l : List Nat) (acc : List Row × List PasteChange),
      (∀ r ∈ l, av + r < data.length) → l.Nodup →
      acc.1.length = data.length →
      (∀ ch ∈ acc.2, ∀ r ∈ l, ch.row ≠ av + r) →
      (∀ i k, getVal (rowAt (dataUndo acc.2 acc.1) i) k = getVal (rowAt data i) k) →
      ∀ i k, getVal (rowAt (dataUndo
        ((l.foldl (fun acc r =>
          let visualRow := av + r
          let dataRow := toDataIndex (List.range data.length) visualRow
          let p := pasteRow (rowAt acc.1 dataRow) cols ac (parsed.getD r []) dataRow
          (acc.1.set dataRow p.1, acc.2 ++ p.2)) acc).2)
        ((l.foldl (fun acc r =>
          let visualRow := av + r
          let dataRow := toDataIndex (List.range data.length) visualRow
          let p := pasteRow (rowAt acc.1 dataRow) cols ac (parsed.getD r []) dataRow
          (acc.1.set dataRow p.1, acc.2 ++ p.2)) acc).1)) i) k =
        getVal (rowAt data i) k := by
  intro l
  induction l with
  | nil => intro acc _ _ _ _ hrest; exact hrest
  | cons r0 t ih =>
    intro acc hb hnd2 hlen hfresh hrest
    rw [List.foldl_cons]
    have hr0 : av + r0 < data.length := hb r0 (List.mem_cons_self _ _)
    have hDR : toDataIndex (List.range data.length) (av + r0) = av + r0 :=
      toDataIndex_range _ _ hr0
    refine ih _ (fun r hr => hb r (List.mem_cons_of_mem _ hr)) hnd2.of_cons ?_ ?_ ?_
    · simp only []
      rw [List.length_set]
      exact hlen
    · intro ch hch r hr
      rcases List.mem_append.mp hch with hc1 | hc1
      · exact hfresh ch hc1 r (List.mem_cons_of_mem _ hr)
      · have hrow := pasteRow_rows _ cols ac _ _ ch hc1
        rw [hrow, hDR]
        have hr0r : r0 ≠ r :=
          fun hc => (List.nodup_cons.mp hnd2).1 (by rw [hc]; exact hr)
        omega
    · intro i k
      simp only []
      rw [hDR]
      rw [dataUndo_append]
      have hfr0 : ∀ ch ∈ acc.2, ch.row ≠ av + r0 :=
        fun ch hch => hfresh ch hch r0 (List.mem_cons_self _ _)
      rw [dataUndo_set_comm acc.2 acc.1 (av + r0) _ hfr0]
      have hrows : ∀ ch ∈ (pasteRow (rowAt acc.1 (av + r0)) cols ac
          (parsed.getD r0 []) (av + r0)).2, ch.row = av + r0 :=
        pasteRow_rows _ _ _ _ _
      by_cases hi : i = av + r0
      · rw [hi]
        rw [dataUndo_rowAt_same _ _ _ hrows
          (by rw [List.length_set, dataUndo_length, hlen]; exact hr0)]
        rw [rowAt_set_self _ _ _ (by rw [dataUndo_length, hlen]; exact hr0)]
        rw [pasteRow_restore _ cols ac _ _ hnd k]
        rw [← dataUndo_rowAt_fresh acc.2 acc.1 (av + r0) hfr0]
        exact hrest (av + r0) k
      · have hrne : ∀ ch ∈ (pasteRow (rowAt acc.1 (av + r0)) cols ac
            (parsed.getD r0 []) (av + r0)).2, ch.row ≠ i :=
          fun ch hch => by rw [hrows ch hch]; exact fun hc => hi hc.symm
        rw [dataUndo_rowAt_fresh _ _ _ hrne]
        rw [rowAt_set_ne _ _ _ _ (fun hc => hi hc.symm)]
        exact hrest i k

/-- `pasteWrites` with the identity sorted view: replaying the recorded
old values restores the original data, pointwise. -/
theorem pasteWrites_restore (data : List Row) (cols : List ColumnDefinition)
    (av ac : Nat) (parsed : List (List String))
    (hnd : (cols.map (fun c => c.key)).Nodup) :
    ∀ i k, getVal (rowAt (dataUndo
      (pasteWrites data (List.range data.length) cols av ac parsed data.length).2
      (pasteWrites data (List.range data.length) cols av ac parsed
        data.length).1) i) k =
      getVal (rowAt data i) k := by
  unfold pasteWrites
  refine pasteWritesFold_restore data cols ac av parsed hnd _ (data, []) ?_ ?_ rfl
    ?_ ?_
  · intro r hr
    have hp := List.mem_takeWhile_imp hr
    exact of_decide_eq_true hp
  · exact (List.takeWhile_sublist _).nodup (List.nodup_range _)
  · intro ch hch
    exact absurd hch (List.not_mem_nil ch)
  · intro i k
    rfl

/-- The paste undo closure, applied to a state holding the written data,
shrinks back to the base data and restores every cell, pointwise. -/
theorem pasteUndoFn_spec (d1 : List Row) (sorted : List Nat)
    (cols : List ColumnDefinition) (av ac count AC : Nat)
    (parsed : List (List String)) (g : GridCore) (base : List Row)
    (hnd : (cols.map (fun c => c.key)).Nodup)
    (hsorted : sorted = List.range d1.length)
    (hcount : count = d1.length)
    (hbase : d1.length = base.length + AC)
    (hrowbase : ∀ i, i < base.length → rowAt d1 i = rowAt base i)
    (hg : g.data = (pasteWrites d1 sorted cols av ac parsed count).1) :
    (pasteUndoFn (pasteWrites d1 sorted cols av ac parsed count).2 AC g).data.length
      = base.length ∧
    ∀ i k, getVal (rowAt
      (pasteUndoFn (pasteWrites d1 sorted cols av ac parsed count).2 AC g).data i) k
      = getVal (rowAt base i) k := by
  subst hsorted
  subst hcount
  unfold pasteUndoFn
  simp only []
  rw [hg]
  have hrest := pasteWrites_restore d1 cols av ac parsed hnd
  have hlenX : (dataUndo
      (pasteWrites d1 (List.range d1.length) cols av ac parsed d1.length).2
      (pasteWrites d1 (List.range d1.length) cols av ac parsed d1.length).1).length
      = d1.length := by
    rw [dataUndo_length, pasteWrites_fst_length]
  constructor
  · rw [List.length_take, hlenX, hbase]
    omega
  · intro i k
    have hTa : (dataUndo
        (pasteWrites d1 (List.range d1.length) cols av ac parsed d1.length).2
        (pasteWrites d1 (List.range d1.length) cols av ac parsed
          d1.length).1).length - AC = base.length := by
      rw [hlenX]
      omega
    rw [hTa]
    by_cases hi : i < base.length
    · rw [rowAt_take_lt _ _ _ hi]
      rw [hrest i k]
      rw [hrowbase i hi]
    · rw [rowAt_out _ _ (by rw [List.length_take, hlenX]; omega)]
      rw [rowAt_out base i (by omega)]

/-- `_handlePaste` with an active cell and a non-empty parse runs the body. -/
theorem handlePaste_eq (s : GridState) (a : CellPosition)
    (parsed : List (List String)) (hac : s.activeCell = some a)
    (hp : parsed ≠ []) :
    handlePaste s parsed = handlePasteBody s a parsed := by
  unfold handlePaste
  rw [hac]
  show (if parsed.isEmpty then s else handlePasteBody s a parsed) =
    handlePasteBody s a parsed
  rw [if_neg (by simp [hp])]

/-- The paste body grows the data to `min(required, limit)` rows, never
shrinking. -/
theorem handlePasteBody_data_length (s : GridState) (a : CellPosition)
    (parsed : List (List String)) :
    (handlePasteBody s a parsed).core.data.length =
      s.core.data.length +
      ((min ((a.row.toNat : Int) + parsed.length)
        (if s.maxRows > 0 then s.maxRows
         else (a.row.toNat : Int) + parsed.length)) -
        s.core.data.length).toNat := by
  unfold handlePasteBody
  simp only []
  rw [pasteWrites_fst_length]
  simp [List.length_append, List.length_replicate]

/-- When paste must add rows (required exceeds the data and the ceiling
does not forbid it), exactly one undo action labelled "paste" is pushed. -/
theorem handlePasteBody_push (s : GridState) (a : CellPosition)
    (parsed : List (List String))
    (h1 : (a.row.toNat : Int) + parsed.length > s.core.data.length)
    (h2 : s.maxRows > s.core.data.length ∨ s.maxRows ≤ 0) :
    ∃ act : UndoAction,
      (handlePasteBody s a parsed).undo = s.undo.push act ∧
      act.label = "paste" := by
  unfold handlePasteBody
  simp only []
  by_cases hm : s.maxRows > 0
  · rw [if_pos hm]
    have hACpos : ((min ((a.row.toNat : Int) + parsed.length) s.maxRows) -
        s.core.data.length).toNat > 0 := by
      rcases h2 with h2 | h2 <;> omega
    rw [if_pos (Or.inr hACpos)]
    exact ⟨_, rfl, rfl⟩
  · rw [if_neg hm]
    have hACpos : ((min ((a.row.toNat : Int) + parsed.length)
        ((a.row.toNat : Int) + parsed.length)) - s.core.data.length).toNat > 0 := by
      omega
    rw [if_pos (Or.inr hACpos)]
    exact ⟨_, rfl, rfl⟩

/-- The single pushed paste action undoes the whole paste: applied to the
post-paste state (with no filters or sort criteria), its undo closure
returns the data to its original length and restores every cell value. -/
theorem handlePasteBody_undo_restores (s : GridState) (a : CellPosition)
    (parsed : List (List String))
    (h1 : (a.row.toNat : Int) + parsed.length > s.core.data.length)
    (h2 : s.maxRows > s.core.data.length ∨ s.maxRows ≤ 0)
    (hfil : s.core.filters = [])
    (hsort : s.core.sortCriteria = [])
    (hnd : ((visibleColumns s.core).map (fun c => c.key)).Nodup) :
    ∃ act : UndoAction,
      (handlePasteBody s a parsed).undo = s.undo.push act ∧
      act.label = "paste" ∧
      (act.runUndo (handlePasteBody s a parsed).core).data.length =
        s.core.data.length ∧
      ∀ i k,
        getVal (rowAt (act.runUndo (handlePasteBody s a parsed).core).data i) k =
          getVal (rowAt s.core.data i) k := by
  unfold handlePasteBody
  simp only []
  by_cases hm : s.maxRows > 0
  · rw [if_pos hm]
    have hACpos : ((min ((a.row.toNat : Int) + parsed.length) s.maxRows) -
        s.core.data.length).toNat > 0 := by
      rcases h2 with h2 | h2 <;> omega
    rw [if_pos hACpos]
    rw [recomputeView_identity
      ⟨s.core.data ++ List.replicate
        (((min ((a.row.toNat : Int) + parsed.length) s.maxRows) -
          s.core.data.length).toNat) (createEmptyRow s.core.columns),
        s.core.columns, s.core.filters, s.core.sortCriteria,
        s.core.columnWidths⟩
      hfil hsort]
    simp only []
    rw [List.length_range]
    rw [if_pos (Or.inr hACpos)]
    refine ⟨_, rfl, rfl, ?_, ?_⟩
    · refine (pasteUndoFn_spec _ _ _ _ _ _ _ _ _ s.core.data hnd rfl rfl ?_
        (fun i hi => rowAt_append_left _ _ i hi) rfl).1
      simp [List.length_append, List.length_replicate]
    · exact (pasteUndoFn_spec _ _ _ _ _ _ _ _ _ s.core.data hnd rfl rfl
        (by simp [List.length_append, List.length_replicate])
        (fun i hi => rowAt_append_left _ _ i hi) rfl).2
  · rw [if_neg hm]
    have hACpos : ((min ((a.row.toNat : Int) + parsed.length)
        ((a.row.toNat : Int) + parsed.length)) - s.core.data.length).toNat > 0 := by
      omega
    rw [if_pos hACpos]
    rw [recomputeView_identity
      ⟨s.core.data ++ List.replicate
        (((min ((a.row.toNat : Int) + parsed.length)
          ((a.row.toNat : Int) + parsed.length)) -
          s.core.data.length).toNat) (createEmptyRow s.core.columns),
        s.core.columns, s.core.filters, s.core.sortCriteria,
        s.core.columnWidths⟩
      hfil hsort]
    simp only []
    rw [List.length_range]
    rw [if_pos (Or.inr hACpos)]
    refine ⟨_, rfl, rfl, ?_, ?_⟩
    · refine (pasteUndoFn_spec _ _ _ _ _ _ _ _ _ s.core.data hnd rfl rfl ?_
        (fun i hi => rowAt_append_left _ _ i hi) rfl).1
      simp [List.length_append, List.length_replicate]
    · exact (pasteUndoFn_spec _ _ _ _ _ _ _ _ _ s.core.data hnd rfl rfl
        (by simp [List.length_append, List.length_replicate])
        (fun i hi => rowAt_append_left _ _ i hi) rfl).2

/-- C2: pasting an R-row block with the active cell at visual row v grows
the data to `min(v + R, ceiling)` rows (never shrinking, and only up to
`maxRows` when that ceiling is set), with values still applied to rows
that already existed; whenever rows must be added, exactly one undo
action labelled "paste" is pushed, and (in the unfiltered, unsorted
state, with distinct visible column keys) running that action's undo
returns the data to its original length and restores every cell value;
in particular a 3-row block pasted at the last existing row appends
exactly 2 rows. -/
theorem c2_handlePaste (s : GridState) (parsed : List (List String))
    (a : CellPosition) (hac : s.activeCell = some a) (hp : parsed ≠ []) :
    ((handlePaste s parsed).core.data.length =
      s.core.data.length +
      ((min ((a.row.toNat : Int) + parsed.length)
        (if s.maxRows > 0 then s.maxRows
         else (a.row.toNat : Int) + parsed.length)) -
        s.core.data.length).toNat) ∧
    ((a.row.toNat : Int) + parsed.length > s.core.data.length →
      s.maxRows > s.core.data.length ∨ s.maxRows ≤ 0 →
      ∃ act : UndoAction,
        (handlePaste s parsed).undo = s.undo.push act ∧ act.label = "paste") ∧
    ((a.row.toNat : Int) + parsed.length > s.core.data.length →
      s.maxRows > s.core.data.length ∨ s.maxRows ≤ 0 →
      s.core.filters = [] → s.core.sortCriteria = [] →
      ((visibleColumns s.core).map (fun c => c.key)).Nodup →
      ∃ act : UndoAction,
        (handlePaste s parsed).undo = s.undo.push act ∧
        act.label = "paste" ∧
        (act.runUndo (handlePaste s parsed).core).data.length =
          s.core.data.length ∧
        ∀ i k,
          getVal (rowAt (act.runUndo (handlePaste s parsed).core).data i) k =
            getVal (rowAt s.core.data i) k) ∧
    (a.row.toNat + 1 = s.core.data.length → parsed.length = 3 →
      s.maxRows ≤ 0 ∨ (s.core.data.length : Int) + 2 ≤ s.maxRows →
      (handlePaste s parsed).core.data.length = s.core.data.length + 2) := by
  rw [handlePaste_eq s a parsed hac hp]
  refine ⟨handlePasteBody_data_length s a parsed, ?_, ?_, ?_⟩
  · intro h1 h2
    exact handlePasteBody_push s a parsed h1 h2
  · intro h1 h2 hfil hsort hnd
    exact handlePasteBody_undo_restores s a parsed h1 h2 hfil hsort hnd
  · intro hlast h3 hceil
    rw [handlePasteBody_data_length]
    rw [h3]
    by_cases hm : s.maxRows > 0
    · rw [if_pos hm]
      rcases hceil with hceil | hceil
      · omega
      · omega
    · rw [if_neg hm]
      omega

/-- C2 witness: a one-row table, paste of a 3-by-1 block at the (only)
last row: the data grows to exactly 3 rows and a single "paste" undo
action is pushed onto the previously empty undo stack. -/
theorem c2_handlePaste_witness :
    (handlePaste
      ⟨⟨[[("k", Value.vStr "a")]],
        [⟨"k", "", none, none, none, none, none, none⟩], [], [], []⟩,
        some ⟨0, 0⟩, 0, UndoStack.initial UndoAction, [0], [0]⟩
      [["x"], ["y"], ["z"]]).core.data.length = 1 + 2 ∧
    ∃ act : UndoAction,
      (handlePaste
        ⟨⟨[[("k", Value.vStr "a")]],
          [⟨"k", "", none, none, none, none, none, none⟩], [], [], []⟩,
          some ⟨0, 0⟩, 0, UndoStack.initial UndoAction, [0], [0]⟩
        [["x"], ["y"], ["z"]]).undo =
        (UndoStack.initial UndoAction).push act ∧ act.label = "paste" :=
  ⟨(c2_handlePaste _ _ ⟨0, 0⟩ rfl (by decide)).2.2.2 rfl rfl (Or.inl (by decide)),
   (c2_handlePaste _ _ ⟨0, 0⟩ rfl (by decide)).2.1 (by decide)
     (Or.inr (by decide))⟩

end FlexTable
